import Mathlib

/-!
Verification of the yuque-to-md conversion core (src/src/html-to-md.ts and
src/src/index.ts) against its natural-language specification.

JavaScript strings are embedded as `List Char`, one entry per code point.
The embedded definitions keep the source's names where Lean allows it:
`sanitizeFileName`, `prettyMd`, `decodeHtmlEntities`, `nodeToMarkdown`,
`htmlToMarkdown`, and the `SimpleHtmlParser` methods (`parseChildren`,
`parseElement`, and its inline attribute loop) as the fuel-indexed functions
`parseChildrenF`, `parseElementF`, `parseAttrsF`.  The parser mutates a
cursor `this.pos` into a fixed string `this.html`; here the cursor is an
explicit `Nat` argument and each function returns the new cursor.  The fuel
argument only bounds the recursion depth; a theorem below shows the fuel
bound used by `parse` is always sufficient, which is exactly the
termination content of the hand-rolled recursive-descent parser.

The TOC path-assignment loop of `extractRepos` (index.ts:425-494) draws
random integers via `Math.floor(Math.random() * 1000)`; it is embedded with
an explicit oracle `rng : List Nat` whose values are reduced mod 1000, and
returns `none` when the finite oracle is exhausted while the collision loop
is still searching.
-/

set_option maxRecDepth 8000

namespace YuqueToMd

/-- The JavaScript whitespace class (the `\s` regex class, `trim`,
`trimEnd`): space, tab, LF, VT, FF, CR, NBSP, Ogham space mark, the Unicode
space separators, LS, PS, NNBSP, MMSP, ideographic space and BOM. -/
def wsChar (c : Char) : Bool :=
  c.toNat = 32 || c.toNat = 9 || c.toNat = 10 || c.toNat = 11 || c.toNat = 12 ||
  c.toNat = 13 || c.toNat = 160 || c.toNat = 5760 ||
  (8192 ≤ c.toNat && c.toNat ≤ 8202) || c.toNat = 8232 || c.toNat = 8233 ||
  c.toNat = 8239 || c.toNat = 8287 || c.toNat = 12288 || c.toNat = 65279

/-- ASCII alphanumeric, the tag-name class `[a-zA-Z0-9]` of
`SimpleHtmlParser.parseElement` (html-to-md.ts:102). -/
def isTagChar (c : Char) : Bool :=
  (97 ≤ c.toNat && c.toNat ≤ 122) || (65 ≤ c.toNat && c.toNat ≤ 90) ||
  (48 ≤ c.toNat && c.toNat ≤ 57)

/-- The attribute-name class `[a-zA-Z0-9_-]` (html-to-md.ts:115). -/
def isAttrChar (c : Char) : Bool :=
  isTagChar c || c = '_' || c = '-'

/-- ASCII decimal digit, the `\d` class of the numeric entity regex. -/
def isDigitCh (c : Char) : Bool :=
  48 ≤ c.toNat && c.toNat ≤ 57

/-- The hexadecimal digit class `[0-9a-fA-F]` of the hex entity regex. -/
def isHexCh (c : Char) : Bool :=
  isDigitCh c || (97 ≤ c.toNat && c.toNat ≤ 102) || (65 ≤ c.toNat && c.toNat ≤ 70)

/-- The word class `\w` = `[A-Za-z0-9_]` of the `language-(\w+)` regex. -/
def isWordChar (c : Char) : Bool :=
  isTagChar c || c = '_'

/-- The backquote character (code 96), used by the `code` and `pre`
rendering rules. -/
def backquote : Char := Char.ofNat 96

/-- The apostrophe character (code 39), the replacement for the `&#39;`,
`&lsquo;` and `&rsquo;` entities. -/
def apos : Char := Char.ofNat 39

/-- JS `trimEnd`: drop trailing whitespace. -/
def trimEnd (l : List Char) : List Char :=
  (l.reverse.dropWhile wsChar).reverse

/-- JS `trimStart`: drop leading whitespace. -/
def trimStart (l : List Char) : List Char :=
  l.dropWhile wsChar

/-- JS `trim`: drop whitespace at both ends. -/
def trimJs (l : List Char) : List Char :=
  trimEnd (trimStart l)

/-- JS `split('\n')`: the list of lines, with separators removed.  Always
nonempty (an empty string splits into one empty line). -/
def splitNl : List Char → List (List Char)
| [] => [[]]
| c :: t =>
  if c = '\n' then [] :: splitNl t
  else
    match splitNl t with
    | [] => [[c]]
    | l :: ls => (c :: l) :: ls

/-- JS `join('\n')`: interleave the lines with single newlines. -/
def joinNl : List (List Char) → List Char
| [] => []
| [l] => l
| l :: ls => l ++ '\n' :: joinNl ls

/-- JS `join(sep)` for a general separator. -/
def joinSep (sep : List Char) : List (List Char) → List Char
| [] => []
| [l] => l
| l :: ls => l ++ sep ++ joinSep sep ls

/-! ### sanitizeFileName (index.ts:60-72) -/

/-- One `.replace(/c/g, r)` step for a single-character pattern: a global
single-character replacement is a character-wise map. -/
def replaceCharAll (c r : Char) (s : List Char) : List Char :=
  s.map fun x => if x = c then r else x

/-- Embeds `sanitizeFileName` (index.ts:60-72): the ten chained global
replacements, applied in the source's order. -/
def sanitizeFileName (name : List Char) : List Char :=
  let s1 := replaceCharAll '/' '_' name
  let s2 := replaceCharAll '\\' '_' s1
  let s3 := replaceCharAll ' ' '_' s2
  let s4 := replaceCharAll '?' '_' s3
  let s5 := replaceCharAll '*' '_' s4
  let s6 := replaceCharAll '<' '_' s5
  let s7 := replaceCharAll '>' '_' s6
  let s8 := replaceCharAll '|' '_' s7
  let s9 := replaceCharAll '"' '_' s8
  replaceCharAll ':' '_' s9

/-- The ten file-system-unsafe characters replaced by `sanitizeFileName`. -/
def sanitizedChars : List Char := ['/', '\\', ' ', '?', '*', '<', '>', '|', '"', ':']

/-! ### prettyMd (index.ts:74-91) -/

/-- The first phase of `prettyMd` (index.ts:77-81): split into lines,
`trimEnd` each line, rejoin with newlines. -/
def trimLines (s : List Char) : List Char :=
  joinNl ((splitNl s).map trimEnd)

/-- One pass of `output.replace(/\n\n\n/g, '\n\n')` (index.ts:84): a single
left-to-right, non-overlapping global replacement of three consecutive
newlines by two. -/
def collapseOnce : List Char → List Char
| [] => []
| c :: t =>
  if c = '\n' ∧ t.take 2 = ['\n', '\n'] then '\n' :: '\n' :: collapseOnce (t.drop 2)
  else c :: collapseOnce t
termination_by s => s.length
decreasing_by
· simp only [List.length_cons]
  have := List.length_drop 2 t
  omega
· simp

/-- The `output.includes('\n\n\n')` test (index.ts:85): whether three
consecutive newlines occur anywhere. -/
def hasTriple : List Char → Bool
| [] => false
| c :: t => (decide (c = '\n') && decide (t.take 2 = ['\n', '\n'])) || hasTriple t

/-- The bounded iteration of `prettyMd` (index.ts:83-88): up to `k` passes
of the triple-newline collapse, stopping early as soon as the result has no
triple newline. -/
def collapseLoop : Nat → List Char → List Char
| 0, s => s
| k + 1, s =>
  let s2 := collapseOnce s
  if hasTriple s2 then collapseLoop k s2 else s2

/-- Embeds `prettyMd` (index.ts:74-91): per-line `trimEnd`, then at most 50
passes of collapsing `\n\n\n` to `\n\n`, stopping early when none remains. -/
def prettyMd (text : List Char) : List Char :=
  collapseLoop 50 (trimLines text)

/-- Length of the longest run of consecutive newline characters;
the accumulator `cur` counts the current run, `m` the best finished run. -/
def mrAux : Nat → Nat → List Char → Nat
| cur, m, [] => max cur m
| cur, m, c :: t => if c = '\n' then mrAux (cur + 1) m t else mrAux 0 (max cur m) t

/-- The longest run of consecutive newlines in a string. -/
def maxRun (s : List Char) : Nat := mrAux 0 0 s

/-- What one collapse pass does to the length of a newline run:
`⌈2n/3⌉ = n - n/3`. -/
def runAfterPass (n : Nat) : Nat := n - n / 3

/-- What `collapseLoop k` does to the longest newline run. -/
def runAfterLoop : Nat → Nat → Nat
| 0, m => m
| k + 1, m =>
  let m2 := runAfterPass m
  if 3 ≤ m2 then runAfterLoop k m2 else m2

/-- The least newline-run length that survives the 50 collapse passes of
`prettyMd` with three or more newlines still standing. -/
def runCapThreshold : Nat := 1034394553

/-- Whether a line is already `trimEnd`-fixed: empty or not ending in
whitespace. -/
def lastOk (l : List Char) : Bool :=
  match l.reverse.head? with
  | none => true
  | some c => !wsChar c

/-- Whether every line of a string is `trimEnd`-fixed: no non-newline
whitespace character directly precedes a newline or the end of the
string. -/
def tidy : List Char → Bool
| [] => true
| c :: t =>
  if wsChar c = true ∧ c ≠ '\n' then
    if t.head? = some '\n' ∨ t.isEmpty then false else tidy t
  else tidy t

/-! ### The HTML node tree (html-to-md.ts:170-176) -/

/-- The `Node` union of html-to-md.ts:170-176: a synthetic root, an element
with lowercase tag name, attribute mapping and ordered children, or a text
node carrying raw (still entity-encoded) content. -/
inductive HNode where
| root (children : List HNode)
| element (tagName : List Char) (attributes : List (List Char × List Char)) (children : List HNode)
| text (content : List Char)

/-! ### The parser (html-to-md.ts:48-168) -/

/-- Character access `this.html[this.pos]`: `none` beyond the end. -/
def charAt (h : List Char) (i : Nat) : Option Char := h.get? i

/-- Index of the first occurrence of `pat` in `l`, if any. -/
def findIdx (pat : List Char) : List Char → Option Nat
| [] => if pat.isPrefixOf [] then some 0 else none
| c :: t => if pat.isPrefixOf (c :: t) then some 0 else (findIdx pat t).map (· + 1)

/-- JS `indexOf(pat, start)`: first occurrence at an index `≥ start`. -/
def findFrom (h pat : List Char) (start : Nat) : Option Nat :=
  (findIdx pat (h.drop start)).map (· + start)

/-- The `skipWhitespace` method (html-to-md.ts:163-167): advance the cursor
past whitespace. -/
def skipWs (h : List Char) (pos : Nat) : Nat :=
  pos + ((h.drop pos).takeWhile wsChar).length

/-- The `skipComment` method (html-to-md.ts:88-95): jump past the next
`-->`, or to end-of-input when the comment is unterminated. -/
def skipComment (h : List Char) (pos : Nat) : Nat :=
  match findFrom h ("-->".data) pos with
  | some e => e + 3
  | none => h.length

/-- The attribute regex `^([a-zA-Z0-9_-]+)(?:="([^"]*)")?` applied at `pos`
(html-to-md.ts:115): returns the name, the value (empty when the optional
quoted group is absent) and the matched length. -/
def attrMatchAt (h : List Char) (pos : Nat) : Option (List Char × List Char × Nat) :=
  let rest := h.drop pos
  let name := rest.takeWhile isAttrChar
  if name = [] then none
  else
    let afterName := rest.drop name.length
    if afterName.head? = some '=' ∧ (afterName.drop 1).head? = some '"' then
      let v := ((afterName.drop 2).takeWhile fun c => c ≠ '"')
      if ((afterName.drop 2).drop v.length).head? = some '"' then
        some (name, v, name.length + v.length + 3)
      else some (name, [], name.length)
    else some (name, [], name.length)

/-- The assignment `attributes[name] = value` on a JS object: overwrite the
existing key or append a new one. -/
def setAttr (attrs : List (List Char × List Char)) (k v : List Char) :
    List (List Char × List Char) :=
  if attrs.any fun p => p.1 = k then attrs.map fun p => if p.1 = k then (k, v) else p
  else attrs ++ [(k, v)]

/-- The fixed void-tag allow-list (html-to-md.ts:125). -/
def voidTags : List (List Char) :=
  ["img", "br", "hr", "input", "meta", "link", "area", "base", "col", "embed",
   "param", "source", "track", "wbr"].map String.data

/-- The attribute loop of `parseElement` (html-to-md.ts:110-122): while the
cursor is inside the input and not at `>` or `/`, skip whitespace, stop at
`>` or `/`, else consume one attribute match or advance one character. -/
def parseAttrsF (h : List Char) :
    Nat → Nat → List (List Char × List Char) → Option (List (List Char × List Char) × Nat)
| 0, _, _ => none
| fuel + 1, pos, attrs =>
  if pos < h.length ∧ charAt h pos ≠ some '>' ∧ charAt h pos ≠ some '/' then
    let p2 := skipWs h pos
    if charAt h p2 = some '>' ∨ charAt h p2 = some '/' then some (attrs, p2)
    else
      match attrMatchAt h p2 with
      | some (k, v, len) => parseAttrsF h fuel (p2 + len) (setAttr attrs k v)
      | none => parseAttrsF h fuel (p2 + 1) attrs
  else some (attrs, pos)

/-- The keep-predicate for text runs (html-to-md.ts:80):
`text.trim() || text.includes(' ')`. -/
def textKeep (t : List Char) : Bool :=
  !(trimJs t).isEmpty || t.contains ' '

mutual
/-- The `parseChildren` method (html-to-md.ts:63-86): accumulate children
until a closing tag or end-of-input; a comment is skipped, any other `<`
starts an element, and anything else is a text run kept when it has
non-whitespace or a literal space. -/
def parseChildrenF (h : List Char) : Nat → Nat → Option (List HNode × Nat)
| 0, _ => none
| fuel + 1, pos =>
  if pos < h.length then
    if charAt h pos = some '<' then
      if ("</".data).isPrefixOf (h.drop pos) then some ([], pos)
      else if ("<!--".data).isPrefixOf (h.drop pos) then
        match parseChildrenF h fuel (skipComment h pos) with
        | none => none
        | some (cs, p2) => some (cs, p2)
      else
        match parseElementF h fuel pos with
        | none => none
        | some (el, p2) =>
          match parseChildrenF h fuel p2 with
          | none => none
          | some (cs, p3) => some (el.toList ++ cs, p3)
    else
      let txt := ((h.drop pos).takeWhile fun c => c ≠ '<')
      match parseChildrenF h fuel (pos + txt.length) with
      | none => none
      | some (cs, p2) => some ((if textKeep txt then [HNode.text txt] else []) ++ cs, p2)
  else some ([], pos)

/-- The `parseElement` method (html-to-md.ts:97-152): skip `<`, read the
tag name (`none` with a one-character advance when absent), run the
attribute loop, consume an optional `/` and `>`, and for non-void tags
parse children and jump past the first case-insensitive occurrence of the
matching closing tag, if any. -/
def parseElementF (h : List Char) : Nat → Nat → Option (Option HNode × Nat)
| 0, _ => none
| fuel + 1, pos =>
  let p1 := pos + 1
  let tagRaw := (h.drop p1).takeWhile isTagChar
  if tagRaw = [] then some (none, p1)
  else
    let tagName := tagRaw.map Char.toLower
    match parseAttrsF h fuel (p1 + tagRaw.length) [] with
    | none => none
    | some (attrs, p3) =>
      let p4 := if charAt h p3 = some '/' then p3 + 1 else p3
      let p5 := if charAt h p4 = some '>' then p4 + 1 else p4
      if tagName ∈ voidTags then some (some (.element tagName attrs []), p5)
      else
        match parseChildrenF h fuel p5 with
        | none => none
        | some (cs, p6) =>
          let endTag := ("</".data) ++ tagName ++ (">".data)
          let p7 := match findFrom (h.map Char.toLower) (endTag.map Char.toLower) p6 with
            | some e => e + endTag.length
            | none => p6
          some (some (.element tagName attrs cs), p7)
end

/-- The fuel budget `parse` hands to the parser; a theorem below shows it is
always sufficient. -/
def parserFuel (h : List Char) : Nat := 2 * h.length + 2

/-- The `parse` method (html-to-md.ts:57-61): parse children of a synthetic
root from position 0.  The `none` arm is dead code by the fuel-sufficiency
theorem below. -/
def parse (h : List Char) : HNode :=
  match parseChildrenF h (parserFuel h) 0 with
  | some (cs, _) => .root cs
  | none => .root []

/-! ### Entity decoding (html-to-md.ts:14-45) -/

/-- One `result.replace(new RegExp(entity, 'g'), char)` step for a literal
multi-character pattern: left-to-right, non-overlapping, replacements never
rescanned. -/
def replaceAll (pat repl : List Char) : List Char → List Char
| [] => []
| c :: t =>
  if pat ≠ [] ∧ pat.isPrefixOf (c :: t) then repl ++ replaceAll pat repl (t.drop (pat.length - 1))
  else c :: replaceAll pat repl t
termination_by s => s.length
decreasing_by
· simp only [List.length_cons]
  have := List.length_drop (pat.length - 1) t
  omega
· simp

/-- The fixed named-entity table (html-to-md.ts:16-33), in the source's
insertion order. -/
def entityPairs : List (List Char × List Char) :=
  [("&amp;".data, "&".data),
   ("&lt;".data, "<".data),
   ("&gt;".data, ">".data),
   ("&quot;".data, "\"".data),
   ("&#39;".data, [apos]),
   ("&nbsp;".data, " ".data),
   ("&copy;".data, [Char.ofNat 169]),
   ("&reg;".data, [Char.ofNat 174]),
   ("&trade;".data, [Char.ofNat 8482]),
   ("&mdash;".data, [Char.ofNat 8212]),
   ("&ndash;".data, [Char.ofNat 8211]),
   ("&hellip;".data, [Char.ofNat 8230]),
   ("&lsquo;".data, [apos]),
   ("&rsquo;".data, [apos]),
   ("&ldquo;".data, "\"".data),
   ("&rdquo;".data, "\"".data)]

/-- Decimal digit-string value. -/
def digitsToNat (ds : List Char) : Nat :=
  ds.foldl (fun a c => a * 10 + (c.toNat - 48)) 0

/-- Hexadecimal digit value. -/
def hexDigitVal (c : Char) : Nat :=
  if isDigitCh c then c.toNat - 48
  else if 97 ≤ c.toNat then c.toNat - 87
  else c.toNat - 55

/-- Hexadecimal digit-string value. -/
def hexToNat (ds : List Char) : Nat :=
  ds.foldl (fun a c => a * 16 + hexDigitVal c) 0

/-- JS `String.fromCharCode`: the argument is reduced to a 16-bit code
unit.  (A lone-surrogate result, impossible to represent in `Char`, is
mapped to NUL; no claim touches that corner.) -/
def fromCharCode (n : Nat) : Char := Char.ofNat (n % 65536)

/-- The decimal numeric-reference pass `replace(/&#(\d+);/g, ...)`
(html-to-md.ts:41): scan left to right, replacing each `&#` + digits + `;`
by the character with that code, advancing one character on a failed match
attempt. -/
def decodeDec : List Char → List Char
| [] => []
| c :: t =>
  if c = '&' ∧ t.head? = some '#' then
    let u := t.tail
    let ds := u.takeWhile isDigitCh
    if ds ≠ [] ∧ (u.drop ds.length).head? = some ';' then
      fromCharCode (digitsToNat ds) :: decodeDec (u.drop (ds.length + 1))
    else c :: decodeDec t
  else c :: decodeDec t
termination_by s => s.length
decreasing_by
· simp only [List.length_cons, List.length_drop, List.length_tail]
  omega
· simp
· simp

/-- The hexadecimal numeric-reference pass
`replace(/&#x([0-9a-fA-F]+);/g, ...)` (html-to-md.ts:42). -/
def decodeHex : List Char → List Char
| [] => []
| c :: t =>
  if c = '&' ∧ t.head? = some '#' ∧ (t.drop 1).head? = some 'x' then
    let u := t.drop 2
    let ds := u.takeWhile isHexCh
    if ds ≠ [] ∧ (u.drop ds.length).head? = some ';' then
      fromCharCode (hexToNat ds) :: decodeHex (u.drop (ds.length + 1))
    else c :: decodeHex t
  else c :: decodeHex t
termination_by s => s.length
decreasing_by
· simp only [List.length_cons, List.length_drop]
  omega
· simp
· simp

/-- Embeds `decodeHtmlEntities` (html-to-md.ts:14-45): the sixteen named
entities in order, then decimal, then hexadecimal numeric references. -/
def decodeHtmlEntities (text : List Char) : List Char :=
  decodeHex (decodeDec (entityPairs.foldl (fun acc p => replaceAll p.1 p.2 acc) text))

/-! ### The renderer (html-to-md.ts:178-315) -/

/-- The two heading styles of `ConvertOptions`; `htmlToMarkdown` always
runs with the default `ATX`. -/
inductive HeadingStyle where
| ATX
| SETEXT

/-- Attribute lookup on the parsed attribute mapping. -/
def getAttr (attrs : List (List Char × List Char)) (k : List Char) : Option (List Char) :=
  (attrs.find? fun p => p.1 = k).map fun p => p.2

/-- JS truthy attribute access (`attrs.x ? … : …`, `attrs.x || fallback`):
a present but empty value counts as absent. -/
def getAttrTruthy (attrs : List (List Char × List Char)) (k : List Char) : Option (List Char) :=
  match getAttr attrs k with
  | some v => if v = [] then none else some v
  | none => none

/-- JS `attrs.x || ''`. -/
def attrOrEmpty (attrs : List (List Char × List Char)) (k : List Char) : List Char :=
  (getAttr attrs k).getD []

/-- First match group of `class.match(/language-(\w+)/)`: scan for the
first position where `language-` is followed by at least one word
character. -/
def findLang : List Char → Option (List Char)
| [] => none
| c :: t =>
  if ("language-".data).isPrefixOf (c :: t) then
    let w := ((c :: t).drop 9).takeWhile isWordChar
    if w = [] then findLang t else some w
  else findLang t

/-- The `replace(/^\n+|\n+$/g, '')` step of the `pre` rule
(html-to-md.ts:228): strip leading and trailing newline runs. -/
def dropNlEnds (l : List Char) : List Char :=
  (((l.dropWhile fun c => c = '\n').reverse.dropWhile fun c => c = '\n').reverse)

/-- Whether a node is an element with the given tag name (text nodes have
no tag name). -/
def isTagNamed (t : List Char) : HNode → Bool
| .element tg _ _ => tg = t
| _ => false

/-- Whether a node is a `td` or `th` cell, the filter of the `tr` rule
(html-to-md.ts:267-268). -/
def isCellNode (n : HNode) : Bool :=
  isTagNamed ("td".data) n || isTagNamed ("th".data) n

mutual
/-- Embeds `nodeToMarkdown` (html-to-md.ts:178-315): the per-tag dispatch,
in the source's order of cases. -/
def nodeToMarkdown (opts : HeadingStyle) : HNode → List Char
| .text content => decodeHtmlEntities content
| .root cs => renderChildren opts cs
| .element tagName attrs cs =>
  let children := renderChildren opts cs
  if tagName = "h1".data then
    match opts with
    | .ATX => ("\n# ".data) ++ trimJs children ++ ("\n\n".data)
    | .SETEXT => '\n' :: trimJs children ++ '\n' :: List.replicate (trimJs children).length '=' ++ ("\n\n".data)
  else if tagName = "h2".data then
    match opts with
    | .ATX => ("\n## ".data) ++ trimJs children ++ ("\n\n".data)
    | .SETEXT => '\n' :: trimJs children ++ '\n' :: List.replicate (trimJs children).length '-' ++ ("\n\n".data)
  else if tagName = "h3".data then ("\n### ".data) ++ trimJs children ++ ("\n\n".data)
  else if tagName = "h4".data then ("\n#### ".data) ++ trimJs children ++ ("\n\n".data)
  else if tagName = "h5".data then ("\n##### ".data) ++ trimJs children ++ ("\n\n".data)
  else if tagName = "h6".data then ("\n###### ".data) ++ trimJs children ++ ("\n\n".data)
  else if tagName = "p".data then '\n' :: children ++ ("\n\n".data)
  else if tagName = "br".data then ['\n']
  else if tagName = "hr".data then ("\n---\n\n".data)
  else if tagName = "strong".data ∨ tagName = "b".data then ("**".data) ++ children ++ ("**".data)
  else if tagName = "em".data ∨ tagName = "i".data then '*' :: children ++ ['*']
  else if tagName = "code".data then backquote :: children ++ [backquote]
  else if tagName = "pre".data then
    let lang :=
      match getAttrTruthy attrs ("data-language".data) with
      | some v => v
      | none =>
        match getAttr attrs ("class".data) with
        | some cls => (findLang cls).getD []
        | none => []
    let codeContent := dropNlEnds children
    '\n' :: List.replicate 3 backquote ++ lang ++ '\n' :: codeContent ++ '\n' :: List.replicate 3 backquote ++ ("\n\n".data)
  else if tagName = "blockquote".data then
    '\n' :: joinNl ((splitNl (trimJs children)).map fun line => ("> ".data) ++ line) ++ ("\n\n".data)
  else if tagName = "ul".data then '\n' :: children ++ ['\n']
  else if tagName = "ol".data then '\n' :: children ++ ['\n']
  else if tagName = "li".data then ("- ".data) ++ trimJs children ++ ['\n']
  else if tagName = "a".data then
    let href := attrOrEmpty attrs ("href".data)
    let title :=
      match getAttrTruthy attrs ("title".data) with
      | some t => ' ' :: '"' :: t ++ ['"']
      | none => []
    if href = [] then children
    else '[' :: children ++ ']' :: '(' :: href ++ title ++ [')']
  else if tagName = "img".data then
    let src := attrOrEmpty attrs ("src".data)
    let alt := attrOrEmpty attrs ("alt".data)
    let imgTitle :=
      match getAttrTruthy attrs ("title".data) with
      | some t => ' ' :: '"' :: t ++ ['"']
      | none => []
    '!' :: '[' :: alt ++ ']' :: '(' :: src ++ imgTitle ++ [')']
  else if tagName = "table".data then '\n' :: children ++ ['\n']
  else if tagName = "thead".data then children
  else if tagName = "tbody".data then children
  else if tagName = "tr".data then
    let cells := renderCells opts cs
    let row := ("| ".data) ++ joinSep (" | ".data) cells ++ (" |".data) ++ ['\n']
    if cs.any (isTagNamed ("th".data)) then
      row ++ ("| ".data) ++ joinSep (" | ".data) (cells.map fun _ => "---".data) ++ (" |".data) ++ ['\n']
    else row
  else if tagName = "td".data ∨ tagName = "th".data then children
  else if tagName = "del".data ∨ tagName = "s".data ∨ tagName = "strike".data then
    ("~~".data) ++ children ++ ("~~".data)
  else if tagName = "sup".data then '^' :: children ++ ['^']
  else if tagName = "sub".data then '~' :: children ++ ['~']
  else if tagName = "div".data ∨ tagName = "span".data ∨ tagName = "section".data ∨
      tagName = "article".data ∨ tagName = "header".data ∨ tagName = "footer".data ∨
      tagName = "main".data ∨ tagName = "aside".data ∨ tagName = "nav".data then children
  else if tagName = "script".data ∨ tagName = "style".data ∨ tagName = "noscript".data then []
  else children

/-- The `children` string: each child rendered, joined with `''`. -/
def renderChildren (opts : HeadingStyle) : List HNode → List Char
| [] => []
| n :: ns => nodeToMarkdown opts n ++ renderChildren opts ns

/-- The cell list of the `tr` rule (html-to-md.ts:267-269): direct `td`/`th`
children, each rendered and trimmed. -/
def renderCells (opts : HeadingStyle) : List HNode → List (List Char)
| [] => []
| n :: ns =>
  if isCellNode n then trimJs (nodeToMarkdown opts n) :: renderCells opts ns
  else renderCells opts ns
end

/-- Embeds `htmlToMarkdown` (html-to-md.ts:317-329): empty or
whitespace-only input short-circuits to the empty string, anything else is
parsed and rendered with the default (ATX) options. -/
def htmlToMarkdown (html : List Char) : List Char :=
  if html = [] ∨ trimJs html = [] then []
  else nodeToMarkdown .ATX (parse html)

/-! ### The TOC path assigner (index.ts:425-494, `extractRepos`) -/

/-- The `TYPE_DOC` constant (index.ts:49). -/
def TYPE_DOC : List Char := "DOC".data

/-- One table-of-contents entry as consumed by the path-assignment loop;
`url`, used only to look up the raw document bytes in the archive (an
external collaborator per spec §3), is omitted. -/
structure TocItem where
  title : List Char
  level : Nat
  type : List Char

/-- JS `String(n)` on a natural number. -/
def natStr (k : Nat) : List Char := (Nat.repr k).data

/-- The collision loop of index.ts:446-448: draw random suffixes from the
oracle until the suffixed, re-sanitized name is unused; `none` when the
finite oracle runs out while still colliding. -/
def resolveLoop (usedNames : List (List Char)) (title : List Char) :
    List Nat → Option (List Char × List Nat)
| [] => none
| r :: rest =>
  let cand := sanitizeFileName title ++ natStr (r % 1000)
  if cand ∈ usedNames then resolveLoop usedNames title rest else some (cand, rest)

/-- Lines 445-449 of index.ts: sanitize the title, and resolve collisions
against the global used-name set by random 0-999 suffixing. -/
def resolveName (usedNames : List (List Char)) (title : List Char) (rng : List Nat) :
    Option (List Char × List Nat) :=
  let first := sanitizeFileName title
  if first ∈ usedNames then resolveLoop usedNames title rng else some (first, rng)

/-- The mutable cursor of the path-assignment loop (index.ts:432-435):
directory stack, previous entry's level and sanitized title, and the global
used-name set. -/
structure AState where
  pathPrefixed : List (List Char)
  lastLevel : Nat
  lastSanitizedTitle : List Char
  usedNames : List (List Char)

/-- The initial state (index.ts:432-435). -/
def initAState : AState := ⟨[], 0, [], []⟩

/-- The stack update of index.ts:451-456: push the previous sanitized
title on a level increase; on a decrease, `slice(0, -diff)`, which in JS
clamps to the empty array when `diff` exceeds the length. -/
def pathUpdate (pathPrefixed : List (List Char)) (lastLevel : Nat)
    (lastSanitizedTitle : List Char) (currentLevel : Nat) : List (List Char) :=
  if lastLevel < currentLevel then pathPrefixed ++ [lastSanitizedTitle]
  else if currentLevel < lastLevel then
    pathPrefixed.take (pathPrefixed.length - (lastLevel - currentLevel))
  else pathPrefixed

/-- The output path of index.ts:459, 482-484: the stack joined with `/`
(if nonempty once joined) prefixing `name.md`. -/
def outputPath (pathPrefixed : List (List Char)) (name : List Char) : List Char :=
  let dir := List.intercalate ['/'] pathPrefixed
  if dir = [] then name ++ (".md".data) else dir ++ '/' :: (name ++ (".md".data))

/-- The body of the `for (const item of toc)` loop of `extractRepos`
(index.ts:437-491), specialised to the path-assignment outcome: entries
with empty titles are skipped, other entries resolve a collision-free
sanitized name, update the directory stack, emit an output path when
`DOC`-typed, and always update `lastSanitizedTitle`/`lastLevel`.  (Archive
reading, rendering and zip writing consume the assigned path and are
external collaborators per spec §4.3.) -/
def extractReposGo (st : AState) : List TocItem → List Nat → Option (List (List Char))
| [], _ => some []
| item :: rest, rng =>
  if item.title = [] then extractReposGo st rest rng
  else
    match resolveName st.usedNames item.title rng with
    | none => none
    | some (sanitizedTitle, rng2) =>
      let stack := pathUpdate st.pathPrefixed st.lastLevel st.lastSanitizedTitle item.level
      let emitted := if item.type = TYPE_DOC then [outputPath stack sanitizedTitle] else []
      match extractReposGo ⟨stack, item.level, sanitizedTitle, sanitizedTitle :: st.usedNames⟩ rest rng2 with
      | none => none
      | some ps => some (emitted ++ ps)

/-- The path assignment of `extractRepos` over a whole TOC, from the
initial state. -/
def extractReposPaths (toc : List TocItem) (rng : List Nat) : Option (List (List Char)) :=
  extractReposGo initAState toc rng

/-- Modelled from the spec: the stack update in the words of §4.3 step 3 -
strictly greater pushes the previous entry's sanitized name, strictly
smaller pops `lastLevel - level` segments (one `dropLast` per segment),
equal leaves the stack unchanged.  Stated separately from `pathUpdate`
(the code's `slice(0, -diff)` form) so the two can be compared. -/
def stackUpdateSpec (stack : List (List Char)) (lastLevel : Nat)
    (lastName : List Char) (level : Nat) : List (List Char) :=
  if lastLevel < level then stack ++ [lastName]
  else if level < lastLevel then (List.dropLast)^[lastLevel - level] stack
  else stack

/-- Divergence of the whole assignment: no finite random oracle, however
long, lets it finish. -/
def assignDiverges (toc : List TocItem) : Prop :=
  ∀ rng : List Nat, extractReposPaths toc rng = none

/-- A `DOC` entry titled `A` at level 0. -/
def itemA : TocItem := ⟨['A'], 0, TYPE_DOC⟩

/-- 1002 identical entries titled `A`: one more than the 1001 names the
collision loop can ever generate for that title. -/
def tocA1002 : List TocItem := List.replicate 1002 itemA

/-- Every name the collision logic can assign for the title `A`: the
sanitized title itself or one of its 1000 suffixed variants. -/
def candSpaceA : List (List Char) :=
  ['A'] :: (List.range 1000).map fun k => 'A' :: natStr k

/-- The four-entry example TOC of spec §8 (hierarchy reconstruction). -/
def exampleToc : List TocItem :=
  [⟨['A'], 0, "TITLE".data⟩, ⟨['B'], 1, TYPE_DOC⟩, ⟨['C'], 1, TYPE_DOC⟩, ⟨['D'], 0, TYPE_DOC⟩]

/-! ## Lemmas and claim theorems -/

/-! ### C8: sanitizeFileName -/

/-- The replacement chain acts character-wise: each sanitized character
becomes an underscore and every other character is untouched. -/
lemma sanitizeFileName_cons (c : Char) (t : List Char) :
    sanitizeFileName (c :: t) =
      (if c ∈ sanitizedChars then '_' else c) :: sanitizeFileName t := by
  by_cases hc : c ∈ sanitizedChars
  · rw [if_pos hc]
    simp only [sanitizedChars, List.mem_cons, List.not_mem_nil, or_false] at hc
    rcases hc with rfl | rfl | rfl | rfl | rfl | rfl | rfl | rfl | rfl | rfl <;>
      simp [sanitizeFileName, replaceCharAll]
  · rw [if_neg hc]
    simp only [sanitizedChars, List.mem_cons, List.not_mem_nil, or_false] at hc
    push_neg at hc
    obtain ⟨h1, h2, h3, h4, h5, h6, h7, h8, h9, h10⟩ := hc
    simp [sanitizeFileName, replaceCharAll, h1, h2, h3, h4, h5, h6, h7, h8, h9, h10]

lemma sanitizeFileName_nil : sanitizeFileName [] = [] := rfl

/-- `sanitizeFileName` is the character-wise map sending the ten unsafe
characters to an underscore. -/
lemma sanitizeFileName_eq_map (s : List Char) :
    sanitizeFileName s = s.map fun c => if c ∈ sanitizedChars then '_' else c := by
  induction s with
  | nil => rfl
  | cons c t ih => rw [sanitizeFileName_cons, ih, List.map_cons]

lemma sanitizeFileName_length (s : List Char) :
    (sanitizeFileName s).length = s.length := by
  rw [sanitizeFileName_eq_map, List.length_map]

/-- C8.  For every input string, `sanitizeFileName` replaces each
occurrence of each of the ten characters `/ \ (space) ? * < > | " :` by an
underscore, leaves every other character unchanged, and consequently its
result contains zero occurrences of any of those ten characters. -/
theorem claim_C8 (s : List Char) :
    sanitizeFileName s = (s.map fun c => if c ∈ sanitizedChars then '_' else c) ∧
    ∀ c ∈ sanitizeFileName s, c ∉ sanitizedChars := by
  refine ⟨sanitizeFileName_eq_map s, ?_⟩
  intro c hc
  rw [sanitizeFileName_eq_map] at hc
  obtain ⟨x, _, hx⟩ := List.mem_map.mp hc
  by_cases hmem : x ∈ sanitizedChars
  · rw [if_pos hmem] at hx
    subst hx
    decide
  · rw [if_neg hmem] at hx
    exact hx ▸ hmem

/-! ### Line structure: splitNl, joinNl, trimEnd -/

lemma splitNl_ne_nil (s : List Char) : splitNl s ≠ [] := by
  cases s with
  | nil => simp [splitNl]
  | cons c t =>
    simp only [splitNl]
    by_cases hc : c = '\n'
    · simp [hc]
    · rw [if_neg hc]
      cases h : splitNl t <;> simp

lemma joinNl_cons_cons (l l2 : List Char) (ls : List (List Char)) :
    joinNl (l :: l2 :: ls) = l ++ '\n' :: joinNl (l2 :: ls) := by
  simp [joinNl]

lemma joinNl_splitNl (s : List Char) : joinNl (splitNl s) = s := by
  induction s with
  | nil => rfl
  | cons c t ih =>
    by_cases hc : c = '\n'
    · subst hc
      obtain ⟨l, ls, h⟩ := List.exists_cons_of_ne_nil (splitNl_ne_nil t)
      have hs : splitNl ('\n' :: t) = [] :: splitNl t := by simp [splitNl]
      rw [hs, h, joinNl_cons_cons, ← h, ih]
      simp
    · simp only [splitNl, if_neg hc]
      cases h : splitNl t with
      | nil => exact absurd h (splitNl_ne_nil t)
      | cons l ls =>
        rw [h] at ih
        cases ls with
        | nil =>
          simp only [joinNl] at ih ⊢
          rw [ih]
        | cons l2 ls2 =>
          rw [joinNl_cons_cons] at ih
          rw [joinNl_cons_cons]
          simp [ih]

lemma mem_splitNl_no_nl (s : List Char) : ∀ l ∈ splitNl s, '\n' ∉ l := by
  induction s with
  | nil =>
    intro l hl
    simp [splitNl] at hl
    simp [hl]
  | cons c t ih =>
    intro l hl
    by_cases hc : c = '\n'
    · rw [splitNl, if_pos hc] at hl
      rcases List.mem_cons.mp hl with rfl | h
      · simp
      · exact ih l h
    · rw [splitNl, if_neg hc] at hl
      cases h : splitNl t with
      | nil => exact absurd h (splitNl_ne_nil t)
      | cons l0 ls =>
        rw [h] at hl
        rcases List.mem_cons.mp hl with rfl | hmem
        · intro hn
          rcases List.mem_cons.mp hn with h1 | h1
          · exact hc h1.symm
          · exact ih l0 (h ▸ List.mem_cons_self l0 ls) h1
        · exact ih l (h ▸ List.mem_cons_of_mem l0 hmem)

lemma trimEnd_subset (l : List Char) : trimEnd l ⊆ l := by
  intro x hx
  simp only [trimEnd, List.mem_reverse] at hx
  have := (List.dropWhile_sublist wsChar (l := l.reverse)).subset hx
  simpa using this

lemma head?_dropWhile (p : Char → Bool) (l : List Char) (c : Char)
    (h : (l.dropWhile p).head? = some c) : p c = false := by
  induction l with
  | nil => simp [List.dropWhile] at h
  | cons d t ih =>
    rw [List.dropWhile] at h
    cases hd : p d with
    | true =>
      rw [hd] at h
      exact ih h
    | false =>
      rw [hd] at h
      simp only [List.head?_cons, Option.some.injEq] at h
      subst h
      exact hd

lemma lastOk_trimEnd (l : List Char) : lastOk (trimEnd l) = true := by
  rw [lastOk]
  have hr : (trimEnd l).reverse = l.reverse.dropWhile wsChar := by
    simp [trimEnd]
  rw [hr]
  cases h : (l.reverse.dropWhile wsChar).head? with
  | none => rfl
  | some c => simp [head?_dropWhile wsChar l.reverse c h]

lemma trimEnd_eq_self (l : List Char) (h : lastOk l = true) : trimEnd l = l := by
  rw [lastOk] at h
  rw [trimEnd]
  cases hl : l.reverse with
  | nil =>
    have : l = [] := by simpa using congrArg List.reverse hl
    simp [this, hl]
  | cons c t =>
    rw [hl] at h
    simp only [List.head?_cons] at h
    rw [List.dropWhile_cons, if_neg (by simpa using h)]
    rw [← hl, List.reverse_reverse]

lemma lastOk_cons (c : Char) (l : List Char) (h : l ≠ []) :
    lastOk (c :: l) = lastOk l := by
  rw [lastOk, lastOk, List.reverse_cons]
  obtain ⟨d, t, rfl⟩ := List.exists_cons_of_ne_nil h
  have : (d :: t).reverse ≠ [] := by simp
  obtain ⟨e, u, hu⟩ := List.exists_cons_of_ne_nil this
  rw [hu]
  simp

/-! ### The tidy invariant -/

lemma tidy_cons_not (c : Char) (t : List Char) (h : ¬(wsChar c = true ∧ c ≠ '\n')) :
    tidy (c :: t) = tidy t := by
  rw [tidy, if_neg h]

lemma tidy_nl_cons (t : List Char) : tidy ('\n' :: t) = tidy t :=
  tidy_cons_not _ _ (by simp)

lemma tidy_cons_ws (c d : Char) (t : List Char) (hws : wsChar c = true) (hnl : c ≠ '\n') :
    tidy (c :: d :: t) = if d = '\n' then false else tidy (d :: t) := by
  rw [tidy, if_pos ⟨hws, hnl⟩]
  by_cases hd : d = '\n'
  · simp [hd]
  · simp [hd]

lemma tidy_singleton_ws (c : Char) (hws : wsChar c = true) (hnl : c ≠ '\n') :
    tidy [c] = false := by
  rw [tidy, if_pos ⟨hws, hnl⟩]
  simp

lemma lastOk_of_cons (c : Char) (l : List Char) (h : lastOk (c :: l) = true) (hne : l ≠ []) :
    lastOk l = true := by
  rwa [lastOk_cons c l hne] at h

lemma tidy_append_line (l rest : List Char) (hnl : '\n' ∉ l) (hok : lastOk l = true) :
    tidy (l ++ '\n' :: rest) = tidy rest := by
  induction l with
  | nil => simpa using tidy_nl_cons rest
  | cons c l' ih =>
    have hc : c ≠ '\n' := fun h => hnl (h ▸ List.mem_cons_self c l')
    have hnl' : '\n' ∉ l' := fun h => hnl (List.mem_cons_of_mem c h)
    by_cases hws : wsChar c = true
    · cases l' with
      | nil =>
        exfalso
        rw [lastOk] at hok
        simp [hws] at hok
      | cons d l'' =>
        have hd : d ≠ '\n' := fun h =>
          hnl' (h ▸ List.mem_cons_self d l'')
        rw [List.cons_append, List.cons_append, tidy_cons_ws c d _ hws hc, if_neg hd,
          ← List.cons_append]
        exact ih hnl' (lastOk_of_cons c _ hok (by simp))
    · rw [List.cons_append, tidy_cons_not c _ (by simp [hws])]
      refine ih hnl' ?_
      rcases eq_or_ne l' [] with rfl | hne
      · rfl
      · exact lastOk_of_cons c l' hok hne

lemma tidy_last_line (l : List Char) (hnl : '\n' ∉ l) (hok : lastOk l = true) :
    tidy l = true := by
  induction l with
  | nil => rfl
  | cons c l' ih =>
    have hc : c ≠ '\n' := fun h => hnl (h ▸ List.mem_cons_self c l')
    have hnl' : '\n' ∉ l' := fun h => hnl (List.mem_cons_of_mem c h)
    by_cases hws : wsChar c = true
    · cases l' with
      | nil =>
        exfalso
        rw [lastOk] at hok
        simp [hws] at hok
      | cons d l'' =>
        have hd : d ≠ '\n' := fun h => hnl' (h ▸ List.mem_cons_self d l'')
        rw [tidy_cons_ws c d _ hws hc, if_neg hd]
        exact ih hnl' (lastOk_of_cons c _ hok (by simp))
    · rw [tidy_cons_not c _ (by simp [hws])]
      refine ih hnl' ?_
      rcases eq_or_ne l' [] with rfl | hne
      · rfl
      · exact lastOk_of_cons c l' hok hne

lemma tidy_joinNl (ls : List (List Char)) (h : ∀ l ∈ ls, '\n' ∉ l ∧ lastOk l = true) :
    tidy (joinNl ls) = true := by
  induction ls with
  | nil => rfl
  | cons l ls' ih =>
    cases ls' with
    | nil =>
      have := h l (List.mem_cons_self l [])
      simpa [joinNl] using tidy_last_line l this.1 this.2
    | cons l2 ls2 =>
      have hl := h l (List.mem_cons_self l _)
      rw [joinNl_cons_cons, tidy_append_line l _ hl.1 hl.2]
      exact ih fun x hx => h x (List.mem_cons_of_mem _ hx)

lemma tidy_trimLines (x : List Char) : tidy (trimLines x) = true := by
  apply tidy_joinNl
  intro l hl
  obtain ⟨l0, hl0, rfl⟩ := List.mem_map.mp hl
  exact ⟨fun hmem => mem_splitNl_no_nl x l0 hl0 (trimEnd_subset l0 hmem), lastOk_trimEnd l0⟩

lemma splitNl_lastOk_of_tidy (s : List Char) (h : tidy s = true) :
    ∀ l ∈ splitNl s, lastOk l = true := by
  induction s with
  | nil =>
    intro l hl
    simp [splitNl] at hl
    simp [hl, lastOk]
  | cons c t ih =>
    intro l hl
    by_cases hc : c = '\n'
    · subst hc
      rw [tidy_nl_cons] at h
      have hs : splitNl ('\n' :: t) = [] :: splitNl t := by simp [splitNl]
      rw [hs] at hl
      rcases List.mem_cons.mp hl with rfl | hmem
      · rfl
      · exact ih h l hmem
    · cases h0 : splitNl t with
      | nil => exact absurd h0 (splitNl_ne_nil t)
      | cons l0 ls =>
        have hs : splitNl (c :: t) = (c :: l0) :: ls := by
          rw [splitNl, if_neg hc, h0]
        rw [hs] at hl
        by_cases hws : wsChar c = true
        · cases t with
          | nil =>
            rw [tidy_singleton_ws c hws hc] at h
            exact absurd h (by simp)
          | cons d u =>
            rw [tidy_cons_ws c d u hws hc] at h
            by_cases hd : d = '\n'
            · rw [if_pos hd] at h
              exact absurd h (by simp)
            · rw [if_neg hd] at h
              cases h1 : splitNl u with
              | nil => exact absurd h1 (splitNl_ne_nil u)
              | cons l1 ls1 =>
                have hdu : splitNl (d :: u) = (d :: l1) :: ls1 := by
                  rw [splitNl, if_neg hd, h1]
                rw [hdu] at h0
                injection h0 with h0a h0b
                rcases List.mem_cons.mp hl with rfl | hmem
                · rw [lastOk_cons c l0 (by rw [← h0a]; simp)]
                  apply ih h l0
                  rw [hdu, h0a]
                  exact List.mem_cons_self l0 ls1
                · apply ih h l
                  rw [hdu, h0b]
                  exact List.mem_cons_of_mem _ hmem
        · rw [tidy_cons_not c t (by simp [hws])] at h
          rcases List.mem_cons.mp hl with rfl | hmem
          · by_cases hl0 : l0 = []
            · subst hl0
              rw [lastOk]
              simp [hws]
            · rw [lastOk_cons c l0 hl0]
              exact ih h l0 (h0 ▸ List.mem_cons_self l0 ls)
          · exact ih h l (h0 ▸ List.mem_cons_of_mem _ hmem)

lemma trimLines_of_tidy (s : List Char) (h : tidy s = true) : trimLines s = s := by
  rw [trimLines]
  have hmap : (splitNl s).map trimEnd = splitNl s := by
    have h2 : ∀ l ∈ splitNl s, trimEnd l = id l := fun l hl =>
      trimEnd_eq_self l (splitNl_lastOk_of_tidy s h l hl)
    rw [List.map_congr_left h2, List.map_id]
  rw [hmap, joinNl_splitNl]

/-! ### collapseOnce, hasTriple, maxRun -/

lemma collapseOnce_nil : collapseOnce [] = [] := by simp [collapseOnce]

lemma collapseOnce_cons (c : Char) (t : List Char) :
    collapseOnce (c :: t) =
      if c = '\n' ∧ t.take 2 = ['\n', '\n'] then '\n' :: '\n' :: collapseOnce (t.drop 2)
      else c :: collapseOnce t := by
  simp only [collapseOnce]

lemma collapseOnce_cons_neg (c : Char) (t : List Char)
    (h : ¬(c = '\n' ∧ t.take 2 = ['\n', '\n'])) :
    collapseOnce (c :: t) = c :: collapseOnce t := by
  rw [collapseOnce_cons, if_neg h]

lemma collapseOnce_triple (t : List Char) :
    collapseOnce ('\n' :: '\n' :: '\n' :: t) = '\n' :: '\n' :: collapseOnce t := by
  rw [collapseOnce_cons, if_pos (by simp)]
  simp

lemma hasTriple_cons (c : Char) (t : List Char) :
    hasTriple (c :: t) =
      ((decide (c = '\n') && decide (t.take 2 = ['\n', '\n'])) || hasTriple t) := by
  rw [hasTriple]

lemma collapseOnce_of_noTriple (s : List Char) (h : hasTriple s = false) :
    collapseOnce s = s := by
  induction s with
  | nil => exact collapseOnce_nil
  | cons c t ih =>
    rw [hasTriple_cons] at h
    simp only [Bool.or_eq_false_iff] at h
    have h1 : ¬(c = '\n' ∧ t.take 2 = ['\n', '\n']) := by
      rintro ⟨ha, hb⟩
      have := h.1
      simp [ha, hb] at this
    rw [collapseOnce_cons_neg c t h1, ih h.2]

lemma collapseOnce_head_ne (rest : List Char) (hrest : rest.head? ≠ some '\n') :
    (collapseOnce rest).head? ≠ some '\n' := by
  cases rest with
  | nil => rw [collapseOnce_nil]; simp
  | cons d u =>
    have hd : d ≠ '\n' := by simpa using hrest
    rw [collapseOnce_cons_neg d u fun hand => hd hand.1]
    simpa using hd

lemma runAfterPass_mono {a b : Nat} (h : a ≤ b) : runAfterPass a ≤ runAfterPass b := by
  rw [runAfterPass, runAfterPass]
  omega

lemma runAfterPass_le (a : Nat) : runAfterPass a ≤ a := by
  rw [runAfterPass]; omega

lemma runAfterPass_lt (a : Nat) (h : 3 ≤ a) : runAfterPass a < a := by
  rw [runAfterPass]
  have : 1 ≤ a / 3 := by omega
  omega

/-- Collapsing a maximal newline run of length `n` leaves `n - n/3`
newlines: the global replace matches disjoint triples left to right. -/
lemma collapseOnce_rep (n : Nat) (rest : List Char) (hrest : rest.head? ≠ some '\n') :
    collapseOnce (List.replicate n '\n' ++ rest) =
      List.replicate (runAfterPass n) '\n' ++ collapseOnce rest := by
  induction n using Nat.strong_induction_on with
  | _ n ih =>
    rcases n with _ | _ | _ | m
    · simp [runAfterPass]
    · have hcond : ¬('\n' = '\n' ∧ rest.take 2 = ['\n', '\n']) := by
        rintro ⟨-, h2⟩
        cases rest with
        | nil => simp at h2
        | cons d u =>
          simp at h2
          exact hrest (by simp [h2.1])
      have h1 : List.replicate (0 + 1) '\n' ++ rest = '\n' :: rest := by
        simp [List.replicate_succ]
      rw [h1, collapseOnce_cons_neg '\n' rest hcond]
      have h2 : runAfterPass (0 + 1) = 1 := by norm_num [runAfterPass]
      rw [h2]
      simp [List.replicate_succ]
    · have hrtake : ¬(('\n' :: rest).take 2 = ['\n', '\n']) := by
        intro h2
        cases rest with
        | nil => simp at h2
        | cons d u =>
          simp at h2
          exact hrest (by simp [h2])
      have h2 : List.replicate 2 '\n' ++ rest = '\n' :: '\n' :: rest := by
        simp [List.replicate_succ]
      rw [h2, collapseOnce_cons_neg '\n' ('\n' :: rest) (fun hand => hrtake hand.2)]
      have hcond : ¬('\n' = '\n' ∧ rest.take 2 = ['\n', '\n']) := by
        rintro ⟨-, h3⟩
        cases rest with
        | nil => simp at h3
        | cons d u =>
          simp at h3
          exact hrest (by simp [h3.1])
      rw [collapseOnce_cons_neg '\n' rest hcond]
      simp [runAfterPass, List.replicate_succ]
    · have hshape : List.replicate (m + 3) '\n' ++ rest =
          '\n' :: '\n' :: '\n' :: (List.replicate m '\n' ++ rest) := by
        simp [List.replicate_succ]
      rw [hshape, collapseOnce_triple, ih m (by omega)]
      have harith : runAfterPass (m + 3) = runAfterPass m + 2 := by
        rw [runAfterPass, runAfterPass, Nat.add_div_right m (by norm_num)]
        have := Nat.div_le_self m 3
        omega
      rw [harith]
      have : List.replicate (runAfterPass m + 2) '\n' =
          '\n' :: '\n' :: List.replicate (runAfterPass m) '\n' := by
        rw [show runAfterPass m + 2 = (runAfterPass m + 1) + 1 from rfl,
          List.replicate_succ, List.replicate_succ]
      rw [this]
      simp

lemma mrAux_ge (s : List Char) : ∀ cur m : Nat, m ≤ mrAux cur m s ∧ cur ≤ mrAux cur m s := by
  induction s with
  | nil =>
    intro cur m
    rw [mrAux]
    omega
  | cons c t ih =>
    intro cur m
    rw [mrAux]
    by_cases hc : c = '\n'
    · rw [if_pos hc]
      have := ih (cur + 1) m
      exact ⟨this.1, le_trans (by omega) this.2⟩
    · rw [if_neg hc]
      have := ih 0 (max cur m)
      exact ⟨le_trans (le_max_right cur m) this.1, le_trans (le_max_left cur m) this.1⟩

lemma mrAux_max (s : List Char) : ∀ cur m : Nat, mrAux cur m s = max m (mrAux cur 0 s) := by
  induction s with
  | nil =>
    intro cur m
    rw [mrAux, mrAux]
    omega
  | cons c t ih =>
    intro cur m
    rw [mrAux, mrAux]
    by_cases hc : c = '\n'
    · rw [if_pos hc, if_pos hc, ih (cur + 1) m]
    · rw [if_neg hc, if_neg hc, ih 0 (max cur m), ih 0 (max cur 0)]
      omega

lemma mrAux_rep (n : Nat) (t : List Char) :
    ∀ cur m : Nat, mrAux cur m (List.replicate n '\n' ++ t) = mrAux (cur + n) m t := by
  induction n with
  | zero => intro cur m; simp
  | succ k ih =>
    intro cur m
    rw [List.replicate_succ, List.cons_append, mrAux, if_pos rfl, ih (cur + 1) m]
    have : cur + 1 + k = cur + (k + 1) := by omega
    rw [this]

lemma maxRun_nil : maxRun [] = 0 := rfl

lemma maxRun_cons_ne (c : Char) (t : List Char) (hc : c ≠ '\n') :
    maxRun (c :: t) = maxRun t := by
  rw [maxRun, mrAux, if_neg hc, maxRun]
  simp

lemma maxRun_rep_append (n : Nat) (t : List Char) (ht : t.head? ≠ some '\n') :
    maxRun (List.replicate n '\n' ++ t) = max n (maxRun t) := by
  rw [maxRun, mrAux_rep n t 0 0]
  cases t with
  | nil =>
    rw [mrAux, maxRun_nil]
    omega
  | cons c u =>
    have hc : c ≠ '\n' := by simpa using ht
    rw [mrAux, if_neg hc, mrAux_max u 0 (max (0 + n) 0), maxRun, mrAux, if_neg hc,
      mrAux_max u 0 (max 0 0)]
    omega

lemma maxRun_rep (n : Nat) : maxRun (List.replicate n '\n') = n := by
  have := maxRun_rep_append n [] (by simp)
  rw [maxRun_nil] at this
  simpa using this

lemma mrAux_triple_ge (b : List Char) :
    ∀ (a : List Char) (cur m : Nat), 3 ≤ mrAux cur m (a ++ ['\n', '\n', '\n'] ++ b) := by
  intro a
  induction a with
  | nil =>
    intro cur m
    have hshape : ([] : List Char) ++ ['\n', '\n', '\n'] ++ b =
        List.replicate 3 '\n' ++ b := by simp
    rw [hshape, mrAux_rep 3 b cur m]
    exact le_trans (by omega) (mrAux_ge b (cur + 3) m).2
  | cons c a' ih =>
    intro cur m
    simp only [List.cons_append]
    rw [mrAux]
    by_cases hc : c = '\n'
    · rw [if_pos hc]
      exact ih (cur + 1) m
    · rw [if_neg hc]
      exact ih 0 (max cur m)

lemma maxRun_ge3_of_substring (s : List Char) (h : ['\n', '\n', '\n'] <:+: s) :
    3 ≤ maxRun s := by
  obtain ⟨a, b, hab⟩ := h
  rw [maxRun, ← hab]
  exact mrAux_triple_ge b a 0 0

/-- Decompose a string starting with a newline into its maximal leading
newline run and a remainder not starting with a newline. -/
lemma nlDecomp (c : Char) (t : List Char) (hc : c = '\n') :
    ∃ n rest, 1 ≤ n ∧ c :: t = List.replicate n '\n' ++ rest ∧
      rest.head? ≠ some '\n' ∧ rest.length + n = (c :: t).length := by
  refine ⟨((c :: t).takeWhile fun x => x = '\n').length, (c :: t).dropWhile fun x => x = '\n',
    ?_, ?_, ?_, ?_⟩
  · rw [List.takeWhile_cons_of_pos (by simp [hc])]
    simp
  · conv_lhs => rw [← List.takeWhile_append_dropWhile (p := fun x => x = '\n') (l := c :: t)]
    congr 1
    apply List.eq_replicate_of_mem
    intro b hb
    have := List.mem_takeWhile_imp hb
    simpa using this
  · intro heq
    have := head?_dropWhile (fun x => x = '\n') (c :: t) '\n' heq
    simp at this
  · have := congrArg List.length
      (List.takeWhile_append_dropWhile (p := fun x => x = '\n') (l := c :: t))
    rw [List.length_append] at this
    omega

/-- The longest newline run is realised as an infix (when nonzero). -/
lemma maxRun_realised (s : List Char) :
    maxRun s = 0 ∨ (List.replicate (maxRun s) '\n') <:+: s := by
  have key : ∀ N : Nat, ∀ s : List Char, s.length = N →
      maxRun s = 0 ∨ (List.replicate (maxRun s) '\n') <:+: s := by
    intro N
    induction N using Nat.strong_induction_on with
    | _ N ih =>
      intro s hlen
      cases s with
      | nil => left; rfl
      | cons c t =>
        by_cases hc : c = '\n'
        · obtain ⟨n, rest, hn1, hdecomp, hrest, hlen2⟩ := nlDecomp c t hc
          rw [hdecomp, maxRun_rep_append n rest hrest]
          rcases le_total (maxRun rest) n with hle | hle
          · right
            rw [max_eq_left hle]
            exact ⟨[], rest, by simp⟩
          · rw [max_eq_right hle]
            rcases ih rest.length (by rw [← hlen]; omega) rest rfl with h0 | hinf
            · rw [h0]
              rw [h0] at hle
              right
              have hn0 : n = 0 := by omega
              exact absurd hn0 (by omega)
            · right
              obtain ⟨a, b, hab⟩ := hinf
              refine ⟨List.replicate n '\n' ++ a, b, ?_⟩
              conv_rhs => rw [← hab]
              simp
        · rw [maxRun_cons_ne c t hc]
          rcases ih t.length (by rw [← hlen]; simp) t rfl with h0 | hinf
          · left; exact h0
          · right
            obtain ⟨a, b, hab⟩ := hinf
            refine ⟨c :: a, b, ?_⟩
            conv_rhs => rw [← hab]
            simp
  exact key s.length s rfl

lemma hasTriple_iff_run3 (s : List Char) :
    hasTriple s = true ↔ ['\n', '\n', '\n'] <:+: s := by
  induction s with
  | nil =>
    rw [hasTriple]
    simp
  | cons c t ih =>
    rw [hasTriple_cons]
    simp only [Bool.or_eq_true, Bool.and_eq_true, decide_eq_true_eq]
    rw [ih]
    constructor
    · rintro (⟨hc, ht⟩ | hinf)
      · subst hc
        cases t with
        | nil => simp at ht
        | cons d u =>
          cases u with
          | nil => simp at ht
          | cons e v =>
            simp at ht
            obtain ⟨hd, he⟩ := ht
            subst hd; subst he
            exact ⟨[], v, rfl⟩
      · obtain ⟨a, b, hab⟩ := hinf
        exact ⟨c :: a, b, by rw [← hab]; simp⟩
    · rintro ⟨a, b, hab⟩
      cases a with
      | nil =>
        left
        simp only [List.nil_append] at hab
        have h1 : c = '\n' := (List.cons.injEq .. ▸ hab).1.symm
        have h2 : t = '\n' :: '\n' :: b := by
          have := (List.cons.injEq .. ▸ hab).2
          simp at this
          exact this.symm
        subst h2
        exact ⟨h1.symm ▸ rfl, by simp⟩
      | cons a0 a' =>
        right
        refine ⟨a', b, ?_⟩
        have := (List.cons.injEq .. ▸ hab).2
        simpa using this

lemma hasTriple_iff_maxRun (s : List Char) : hasTriple s = true ↔ 3 ≤ maxRun s := by
  rw [hasTriple_iff_run3]
  constructor
  · exact maxRun_ge3_of_substring s
  · intro h3
    rcases maxRun_realised s with h0 | hinf
    · omega
    · refine List.IsInfix.trans ?_ hinf
      refine ⟨[], List.replicate (maxRun s - 3) '\n', ?_⟩
      have : List.replicate 3 '\n' ++ List.replicate (maxRun s - 3) '\n' =
          List.replicate (maxRun s) '\n' := by
        rw [← List.replicate_add]
        congr 1
        omega
      simpa using this

/-- One collapse pass transforms the longest newline run by exactly
`runAfterPass`. -/
lemma maxRun_collapseOnce (s : List Char) :
    maxRun (collapseOnce s) = runAfterPass (maxRun s) := by
  have key : ∀ N : Nat, ∀ s : List Char, s.length = N →
      maxRun (collapseOnce s) = runAfterPass (maxRun s) := by
    intro N
    induction N using Nat.strong_induction_on with
    | _ N ih =>
      intro s hlen
      cases s with
      | nil =>
        rw [collapseOnce_nil, maxRun_nil]
        rfl
      | cons c t =>
        by_cases hc : c = '\n'
        · obtain ⟨n, rest, hn1, hdecomp, hrest, hlen2⟩ := nlDecomp c t hc
          rw [hdecomp, collapseOnce_rep n rest hrest,
            maxRun_rep_append _ _ (collapseOnce_head_ne rest hrest),
            maxRun_rep_append n rest hrest,
            ih rest.length (by rw [← hlen]; omega) rest rfl]
          rcases le_total n (maxRun rest) with hle | hle
          · rw [max_eq_right hle, max_eq_right (runAfterPass_mono hle)]
          · rw [max_eq_left hle, max_eq_left (runAfterPass_mono hle)]
        · rw [collapseOnce_cons_neg c t fun hand => hc hand.1,
            maxRun_cons_ne c _ hc, maxRun_cons_ne c t hc]
          exact ih t.length (by rw [← hlen]; simp) t rfl
  exact key s.length s rfl

/-! ### The collapse loop -/

lemma collapseLoop_succ (k : Nat) (s : List Char) :
    collapseLoop (k + 1) s =
      if hasTriple (collapseOnce s) then collapseLoop k (collapseOnce s)
      else collapseOnce s := by
  simp only [collapseLoop]

lemma collapseLoop_of_noTriple (k : Nat) (s : List Char) (h : hasTriple s = false) :
    collapseLoop k s = s := by
  cases k with
  | zero => rfl
  | succ k =>
    rw [collapseLoop_succ, collapseOnce_of_noTriple s h, h]
    simp

lemma maxRun_collapseLoop (k : Nat) :
    ∀ s : List Char, maxRun (collapseLoop k s) = runAfterLoop k (maxRun s) := by
  induction k with
  | zero => intro s; rfl
  | succ k ih =>
    intro s
    rw [collapseLoop_succ]
    simp only [runAfterLoop]
    by_cases h : hasTriple (collapseOnce s) = true
    · rw [if_pos h, ih (collapseOnce s), maxRun_collapseOnce]
      have h3 : 3 ≤ runAfterPass (maxRun s) := by
        rw [← maxRun_collapseOnce]
        exact (hasTriple_iff_maxRun _).mp h
      rw [if_pos h3]
    · rw [if_neg h, maxRun_collapseOnce]
      have h3 : ¬ 3 ≤ runAfterPass (maxRun s) := by
        rw [← maxRun_collapseOnce]
        intro hcon
        exact h ((hasTriple_iff_maxRun _).mpr hcon)
      rw [if_neg h3]

lemma tidy_collapseOnce (s : List Char) (h : tidy s = true) :
    tidy (collapseOnce s) = true := by
  have key : ∀ N : Nat, ∀ s : List Char, s.length = N → tidy s = true →
      tidy (collapseOnce s) = true := by
    intro N
    induction N using Nat.strong_induction_on with
    | _ N ih =>
      intro s hlen h
      cases s with
      | nil => rw [collapseOnce_nil]; exact h
      | cons c t =>
        by_cases hcond : c = '\n' ∧ t.take 2 = ['\n', '\n']
        · obtain ⟨hc, ht⟩ := hcond
          subst hc
          cases t with
          | nil => simp at ht
          | cons d u0 =>
            cases u0 with
            | nil => simp at ht
            | cons e u =>
              simp at ht
              obtain ⟨hd, he⟩ := ht
              subst hd; subst he
              rw [collapseOnce_triple, tidy_nl_cons, tidy_nl_cons]
              rw [tidy_nl_cons, tidy_nl_cons, tidy_nl_cons] at h
              refine ih u.length ?_ u rfl h
              rw [← hlen]
              simp only [List.length_cons]
              omega
        · rw [collapseOnce_cons_neg c t hcond]
          by_cases hws : wsChar c = true ∧ c ≠ '\n'
          · cases t with
            | nil =>
              rw [tidy_singleton_ws c hws.1 hws.2] at h
              exact absurd h (by simp)
            | cons d u =>
              rw [tidy_cons_ws c d u hws.1 hws.2] at h
              by_cases hd : d = '\n'
              · rw [if_pos hd] at h
                exact absurd h (by simp)
              · rw [if_neg hd] at h
                have hco : collapseOnce (d :: u) = d :: collapseOnce u :=
                  collapseOnce_cons_neg d u fun hand => hd hand.1
                rw [hco, tidy_cons_ws c d _ hws.1 hws.2, if_neg hd, ← hco]
                exact ih (d :: u).length (by rw [← hlen]; simp) (d :: u) rfl h
          · rw [tidy_cons_not c _ hws] at h
            rw [tidy_cons_not c _ hws]
            exact ih t.length (by rw [← hlen]; simp) t rfl h
  exact key s.length s rfl h

lemma tidy_collapseLoop (k : Nat) :
    ∀ s : List Char, tidy s = true → tidy (collapseLoop k s) = true := by
  induction k with
  | zero => intro s h; exact h
  | succ k ih =>
    intro s h
    rw [collapseLoop_succ]
    by_cases htr : hasTriple (collapseOnce s) = true
    · rw [if_pos htr]
      exact ih _ (tidy_collapseOnce s h)
    · rw [if_neg htr]
      exact tidy_collapseOnce s h

lemma runAfterLoop_le (k : Nat) : ∀ m : Nat, runAfterLoop k m ≤ m := by
  induction k with
  | zero => intro m; exact le_refl m
  | succ k ih =>
    intro m
    simp only [runAfterLoop]
    by_cases h : 3 ≤ runAfterPass m
    · rw [if_pos h]
      exact le_trans (ih _) (runAfterPass_le m)
    · rw [if_neg h]
      exact runAfterPass_le m

lemma runAfterLoop_ge_two (k : Nat) : ∀ m : Nat, 2 ≤ m → 2 ≤ runAfterLoop k m := by
  induction k with
  | zero => intro m h; exact h
  | succ k ih =>
    intro m h
    have h2 : 2 ≤ runAfterPass m := by rw [runAfterPass]; omega
    simp only [runAfterLoop]
    by_cases h3 : 3 ≤ runAfterPass m
    · rw [if_pos h3]
      exact ih _ h2
    · rw [if_neg h3]
      exact h2

lemma runAfterLoop_mono (k : Nat) :
    ∀ a b : Nat, a ≤ b → runAfterLoop k a ≤ runAfterLoop k b := by
  induction k with
  | zero => intro a b h; exact h
  | succ k ih =>
    intro a b h
    have hab : runAfterPass a ≤ runAfterPass b := runAfterPass_mono h
    simp only [runAfterLoop]
    by_cases h3a : 3 ≤ runAfterPass a
    · rw [if_pos h3a, if_pos (le_trans h3a hab)]
      exact ih _ _ hab
    · rw [if_neg h3a]
      by_cases h3b : 3 ≤ runAfterPass b
      · rw [if_pos h3b]
        exact le_trans (by omega) (runAfterLoop_ge_two k _ (by omega))
      · rw [if_neg h3b]
        exact hab

lemma runAfterLoop_bound_small : runAfterLoop 50 (runCapThreshold - 1) ≤ 2 := by decide

lemma runAfterLoop_bound_big : 3 ≤ runAfterLoop 50 runCapThreshold := by decide

lemma runAfterLoop_lt (m : Nat) (h : 3 ≤ m) : runAfterLoop 50 m < m := by
  have h1 : runAfterPass m < m := runAfterPass_lt m h
  show runAfterLoop (49 + 1) m < m
  simp only [runAfterLoop]
  by_cases h3 : 3 ≤ runAfterPass m
  · rw [if_pos h3]
    exact lt_of_le_of_lt (runAfterLoop_le 49 _) h1
  · rw [if_neg h3]
    exact h1

/-! ### prettyMd assembly: claims C4 and C5 -/

lemma maxRun_prettyMd (x : List Char) :
    maxRun (prettyMd x) = runAfterLoop 50 (maxRun (trimLines x)) := by
  rw [prettyMd, maxRun_collapseLoop]

lemma tidy_prettyMd (x : List Char) : tidy (prettyMd x) = true :=
  tidy_collapseLoop 50 _ (tidy_trimLines x)

lemma trimLines_prettyMd (x : List Char) : trimLines (prettyMd x) = prettyMd x :=
  trimLines_of_tidy _ (tidy_prettyMd x)

lemma trimLines_rep (n : Nat) :
    trimLines (List.replicate n '\n') = List.replicate n '\n' := by
  have hsplit : ∀ k : Nat, splitNl (List.replicate k '\n') = List.replicate (k + 1) [] := by
    intro k
    induction k with
    | zero => rfl
    | succ j ih =>
      rw [List.replicate_succ, splitNl, if_pos rfl, ih, ← List.replicate_succ]
  have hjoin : ∀ k : Nat, joinNl (List.replicate (k + 1) ([] : List Char)) =
      List.replicate k '\n' := by
    intro k
    induction k with
    | zero => rfl
    | succ j ih =>
      rw [List.replicate_succ, List.replicate_succ, joinNl_cons_cons,
        ← List.replicate_succ, ih, ← List.replicate_succ]
      simp
  rw [trimLines, hsplit n]
  have hmap : (List.replicate (n + 1) ([] : List Char)).map trimEnd =
      List.replicate (n + 1) [] := by
    rw [List.map_replicate]
    rfl
  rw [hmap, hjoin]

/-- C5 (amended).  The normalized output contains no three consecutive
newlines if and only if the longest newline run of the line-trimmed input
is below the 50-pass cap threshold 1034394553; for realistic inputs the
right-hand side always holds, and the unamended claim fails only at the
counterexample's astronomically long newline run. -/
theorem claim_C5 (x : List Char) :
    (¬ ['\n', '\n', '\n'] <:+: prettyMd x) ↔
      maxRun (trimLines x) < runCapThreshold := by
  constructor
  · intro hno
    by_contra hge
    push_neg at hge
    have h3 : 3 ≤ maxRun (prettyMd x) := by
      rw [maxRun_prettyMd]
      exact le_trans runAfterLoop_bound_big (runAfterLoop_mono 50 _ _ hge)
    exact hno ((hasTriple_iff_run3 _).mp ((hasTriple_iff_maxRun _).mpr h3))
  · intro hlt hinf
    have h3 : 3 ≤ maxRun (prettyMd x) := maxRun_ge3_of_substring _ hinf
    rw [maxRun_prettyMd] at h3
    have hle : runAfterLoop 50 (maxRun (trimLines x)) ≤
        runAfterLoop 50 (runCapThreshold - 1) :=
      runAfterLoop_mono 50 _ _ (by omega)
    have := runAfterLoop_bound_small
    omega

/-- C5 counterexample.  On an input that is a single run of 1034394553
newlines, the 50 collapse passes of `prettyMd` are exhausted with a triple
newline still in the output, refuting the unrestricted claim. -/
theorem claim_C5_counterexample :
    ['\n', '\n', '\n'] <:+: prettyMd (List.replicate runCapThreshold '\n') := by
  have h1 : maxRun (trimLines (List.replicate runCapThreshold '\n')) = runCapThreshold := by
    rw [trimLines_rep, maxRun_rep]
  have h3 : 3 ≤ maxRun (prettyMd (List.replicate runCapThreshold '\n')) := by
    rw [maxRun_prettyMd, h1]
    exact runAfterLoop_bound_big
  exact (hasTriple_iff_run3 _).mp ((hasTriple_iff_maxRun _).mpr h3)

/-- C4 (amended).  `prettyMd` is idempotent at `x` if and only if the
longest newline run of the line-trimmed input is below the 50-pass cap
threshold 1034394553; for realistic inputs the right-hand side always
holds, and the unamended claim fails only at the counterexample's
astronomically long newline run. -/
theorem claim_C4 (x : List Char) :
    prettyMd (prettyMd x) = prettyMd x ↔ maxRun (trimLines x) < runCapThreshold := by
  constructor
  · intro heq
    by_contra hge
    push_neg at hge
    have hM : 3 ≤ maxRun (prettyMd x) := by
      rw [maxRun_prettyMd]
      exact le_trans runAfterLoop_bound_big (runAfterLoop_mono 50 _ _ hge)
    have hlt : maxRun (prettyMd (prettyMd x)) < maxRun (prettyMd x) := by
      rw [maxRun_prettyMd, trimLines_prettyMd]
      exact runAfterLoop_lt _ hM
    rw [heq] at hlt
    omega
  · intro hlt
    have hno : hasTriple (prettyMd x) = false := by
      rcases Bool.eq_false_or_eq_true (hasTriple (prettyMd x)) with h | h
      · exfalso
        have h3 := (hasTriple_iff_maxRun _).mp h
        rw [maxRun_prettyMd] at h3
        have hle : runAfterLoop 50 (maxRun (trimLines x)) ≤
            runAfterLoop 50 (runCapThreshold - 1) :=
          runAfterLoop_mono 50 _ _ (by omega)
        have := runAfterLoop_bound_small
        omega
      · exact h
    conv_lhs => rw [prettyMd]
    rw [trimLines_prettyMd, collapseLoop_of_noTriple 50 _ hno]

/-- C4 counterexample.  On a single run of 1034394553 newlines the second
normalization pass strictly shortens the surviving newline run, so
`prettyMd` is not idempotent there. -/
theorem claim_C4_counterexample :
    prettyMd (prettyMd (List.replicate runCapThreshold '\n')) ≠
      prettyMd (List.replicate runCapThreshold '\n') := by
  intro heq
  have h1 : maxRun (trimLines (List.replicate runCapThreshold '\n')) = runCapThreshold := by
    rw [trimLines_rep, maxRun_rep]
  have hM : 3 ≤ maxRun (prettyMd (List.replicate runCapThreshold '\n')) := by
    rw [maxRun_prettyMd, h1]
    exact runAfterLoop_bound_big
  have h2 : maxRun (prettyMd (prettyMd (List.replicate runCapThreshold '\n'))) <
      maxRun (prettyMd (List.replicate runCapThreshold '\n')) := by
    rw [maxRun_prettyMd, trimLines_prettyMd]
    exact runAfterLoop_lt _ hM
  rw [heq] at h2
  omega

/-! ### The path assigner: claims C1, C6, C7 -/

lemma dropLast_iterate (k : Nat) :
    ∀ l : List (List Char), (List.dropLast)^[k] l = l.take (l.length - k) := by
  induction k with
  | zero =>
    intro l
    simp
  | succ j ih =>
    intro l
    rw [Function.iterate_succ_apply, ih l.dropLast, List.dropLast_eq_take,
      List.length_take, List.take_take]
    congr 1
    omega

/-- The code's `slice(0, -diff)` update and the spec's pop-one-segment-at-a-
time description agree. -/
lemma pathUpdate_eq_spec (stack : List (List Char)) (lastLevel : Nat)
    (lastName : List Char) (level : Nat) :
    pathUpdate stack lastLevel lastName level =
      stackUpdateSpec stack lastLevel lastName level := by
  rw [pathUpdate, stackUpdateSpec]
  split_ifs with h1 h2
  · rfl
  · rw [dropLast_iterate]
  · rfl

lemma extractReposGo_skip (st : AState) (lvl : Nat) (ty : List Char)
    (rest : List TocItem) (rng : List Nat) :
    extractReposGo st (⟨[], lvl, ty⟩ :: rest) rng = extractReposGo st rest rng := by
  rw [extractReposGo, if_pos rfl]

lemma extractReposGo_step (st : AState) (item : TocItem) (rest : List TocItem)
    (rng : List Nat) (htitle : item.title ≠ [])
    (hfresh : sanitizeFileName item.title ∉ st.usedNames) :
    extractReposGo st (item :: rest) rng =
      (extractReposGo
          ⟨pathUpdate st.pathPrefixed st.lastLevel st.lastSanitizedTitle item.level,
            item.level, sanitizeFileName item.title,
            sanitizeFileName item.title :: st.usedNames⟩ rest rng).map
        (fun ps =>
          (if item.type = TYPE_DOC then
            [outputPath
              (pathUpdate st.pathPrefixed st.lastLevel st.lastSanitizedTitle item.level)
              (sanitizeFileName item.title)]
          else []) ++ ps) := by
  rw [extractReposGo, if_neg htitle]
  simp only [resolveName]
  rw [if_neg hfresh]
  cases h : extractReposGo
      ⟨pathUpdate st.pathPrefixed st.lastLevel st.lastSanitizedTitle item.level,
        item.level, sanitizeFileName item.title,
        sanitizeFileName item.title :: st.usedNames⟩ rest rng with
  | none => simp [h]
  | some ps => simp [h]

/-- C1.  Processed in order, an empty-title entry is skipped entirely (the
whole state is untouched); any other entry updates the directory stack
exactly as the spec describes it (strictly greater level pushes the
previous sanitized name, strictly smaller pops `lastLevel - level`
segments, equal leaves it unchanged); and on the four-entry example TOC the
assigned output paths are `A/B.md`, `A/C.md`, `D.md`. -/
theorem claim_C1 :
    (∀ (st : AState) (lvl : Nat) (ty : List Char) (rest : List TocItem) (rng : List Nat),
      extractReposGo st (⟨[], lvl, ty⟩ :: rest) rng = extractReposGo st rest rng) ∧
    (∀ (stack : List (List Char)) (lastLevel : Nat) (lastName : List Char) (level : Nat),
      pathUpdate stack lastLevel lastName level =
        stackUpdateSpec stack lastLevel lastName level) ∧
    extractReposPaths exampleToc [] =
      some [("A/B.md".data), ("A/C.md".data), ("D.md".data)] := by
  refine ⟨extractReposGo_skip, pathUpdate_eq_spec, ?_⟩
  decide

lemma extractReposGo_step_resolved (st : AState) (item : TocItem) (rest : List TocItem)
    (rng rng2 : List Nat) (name : List Char) (htitle : item.title ≠ [])
    (hres : resolveName st.usedNames item.title rng = some (name, rng2)) :
    extractReposGo st (item :: rest) rng =
      (extractReposGo
          ⟨pathUpdate st.pathPrefixed st.lastLevel st.lastSanitizedTitle item.level,
            item.level, name, name :: st.usedNames⟩ rest rng2).map
        (fun ps =>
          (if item.type = TYPE_DOC then
            [outputPath
              (pathUpdate st.pathPrefixed st.lastLevel st.lastSanitizedTitle item.level)
              name]
          else []) ++ ps) := by
  rw [extractReposGo, if_neg htitle, hres]
  cases h : extractReposGo
      ⟨pathUpdate st.pathPrefixed st.lastLevel st.lastSanitizedTitle item.level,
        item.level, name, name :: st.usedNames⟩ rest rng2 with
  | none => simp [h]
  | some ps => simp [h]

/-- C7.  When a level decrease exceeds the current directory-stack depth,
the JS `slice(0, -diff)` clamps to the empty stack (no underflow, no
error), and the loop continues processing with that empty stack. -/
theorem claim_C7 (st : AState) (item : TocItem) (rest : List TocItem) (rng : List Nat)
    (hlv : item.level < st.lastLevel)
    (hdeep : st.pathPrefixed.length ≤ st.lastLevel - item.level)
    (htitle : item.title ≠ [])
    (hfresh : sanitizeFileName item.title ∉ st.usedNames) :
    pathUpdate st.pathPrefixed st.lastLevel st.lastSanitizedTitle item.level = [] ∧
    extractReposGo st (item :: rest) rng =
      (extractReposGo
          ⟨[], item.level, sanitizeFileName item.title,
            sanitizeFileName item.title :: st.usedNames⟩ rest rng).map
        (fun ps =>
          (if item.type = TYPE_DOC then
            [outputPath [] (sanitizeFileName item.title)]
          else []) ++ ps) := by
  have hempty : pathUpdate st.pathPrefixed st.lastLevel st.lastSanitizedTitle item.level = [] := by
    rw [pathUpdate, if_neg (by omega), if_pos hlv, Nat.sub_eq_zero_of_le hdeep,
      List.take_zero]
  refine ⟨hempty, ?_⟩
  rw [extractReposGo_step st item rest rng htitle hfresh, hempty]

/-- Closed instance of the C7 theorem at a concrete state whose stack is
strictly shallower than the level decrease. -/
theorem claim_C7_witness :
    ((0 : Nat) < 5 ∧ ([['a']] : List (List Char)).length ≤ 5 - 0 ∧
      (['t'] : List Char) ≠ [] ∧ sanitizeFileName ['t'] ∉ ([] : List (List Char))) ∧
    (pathUpdate [['a']] 5 ['p'] 0 = [] ∧
      extractReposGo ⟨[['a']], 5, ['p'], []⟩ (⟨['t'], 0, TYPE_DOC⟩ :: []) [] =
        (extractReposGo ⟨[], 0, sanitizeFileName ['t'], sanitizeFileName ['t'] :: []⟩ [] []).map
          (fun ps =>
            (if (TYPE_DOC : List Char) = TYPE_DOC then
              [outputPath [] (sanitizeFileName ['t'])]
            else []) ++ ps)) :=
  ⟨⟨by decide, by decide, by decide, by decide⟩,
    claim_C7 ⟨[['a']], 5, ['p'], []⟩ ⟨['t'], 0, TYPE_DOC⟩ [] []
      (by decide) (by decide) (by decide) (by decide)⟩

/-! ### C6: collision resolution -/

lemma natStr_lt1000_ne_nil : ∀ k : Nat, k < 1000 → natStr k ≠ [] := by decide

lemma natStr_lt1000_digits : ∀ k : Nat, k < 1000 → ∀ c ∈ natStr k, c.isDigit = true := by
  decide

lemma pathUpdate_level_eq (stack : List (List Char)) (lastName : List Char) (lvl : Nat) :
    pathUpdate stack lvl lastName lvl = stack := by
  rw [pathUpdate, if_neg (lt_irrefl lvl), if_neg (lt_irrefl lvl)]

lemma outputPath_nilstack (s : List Char) : outputPath [] s = s ++ (".md".data) := by
  rw [outputPath]
  simp [List.intercalate]

lemma outputPath_emptyseg (s : List Char) : outputPath [[]] s = s ++ (".md".data) := by
  rw [outputPath]
  have : List.intercalate ['/'] [[]] = ([] : List Char) := rfl
  rw [this]
  simp

lemma update_root (lvl : Nat) :
    pathUpdate [] 0 [] lvl = [] ∨ pathUpdate [] 0 [] lvl = [[]] := by
  rcases Nat.eq_zero_or_pos lvl with h0 | hpos
  · left
    subst h0
    rw [pathUpdate_level_eq]
  · right
    rw [pathUpdate, if_pos hpos]
    simp

lemma outputPath_root (lvl : Nat) (s : List Char) :
    outputPath (pathUpdate [] 0 [] lvl) s = s ++ (".md".data) := by
  rcases update_root lvl with h | h <;> rw [h]
  · exact outputPath_nilstack s
  · exact outputPath_emptyseg s

/-- C6 (amended).  The collision loop finds a fresh name as soon as some
candidate (the sanitized title or one of its 1000 random suffixed variants)
is unused - but it spins forever once all of them are taken, so the
unrestricted termination claim fails (see the counterexample).  In
particular, for two entries with the same nonempty title the first random
draw already succeeds: the two assigned file names are distinct, non-empty,
both end in `.md`, and the second carries extra numeric characters beyond
the sanitized title. -/
theorem claim_C6 (t : List Char) (ht : t ≠ []) (lvl : Nat) (r : Nat) (rs : List Nat) :
    extractReposPaths [⟨t, lvl, TYPE_DOC⟩, ⟨t, lvl, TYPE_DOC⟩] (r :: rs) =
      some [sanitizeFileName t ++ (".md".data),
        (sanitizeFileName t ++ natStr (r % 1000)) ++ (".md".data)] ∧
    sanitizeFileName t ++ (".md".data) ≠
      (sanitizeFileName t ++ natStr (r % 1000)) ++ (".md".data) ∧
    sanitizeFileName t ++ (".md".data) ≠ [] ∧
    (sanitizeFileName t ++ natStr (r % 1000)) ++ (".md".data) ≠ [] ∧
    natStr (r % 1000) ≠ [] ∧
    (∀ c ∈ natStr (r % 1000), c.isDigit = true) := by
  have hmod : r % 1000 < 1000 := Nat.mod_lt r (by norm_num)
  have hnn : natStr (r % 1000) ≠ [] := natStr_lt1000_ne_nil _ hmod
  have hd1 : 0 < (natStr (r % 1000)).length := List.length_pos.mpr hnn
  refine ⟨?_, ?_, ?_, ?_, hnn, natStr_lt1000_digits _ hmod⟩
  · rw [extractReposPaths]
    rw [extractReposGo_step initAState ⟨t, lvl, TYPE_DOC⟩ _ _ ht (List.not_mem_nil _)]
    have hres2 : resolveName [sanitizeFileName t] t (r :: rs) =
        some (sanitizeFileName t ++ natStr (r % 1000), rs) := by
      rw [resolveName, if_pos (List.mem_cons_self _ _), resolveLoop]
      have hne : sanitizeFileName t ++ natStr (r % 1000) ∉ [sanitizeFileName t] := by
        intro hmem
        rcases List.mem_cons.mp hmem with heq | hx
        · have hlen := congrArg List.length heq
          rw [List.length_append] at hlen
          omega
        · exact List.not_mem_nil _ hx
      rw [if_neg hne]
    rw [extractReposGo_step_resolved
      ⟨pathUpdate initAState.pathPrefixed initAState.lastLevel
          initAState.lastSanitizedTitle lvl, lvl, sanitizeFileName t,
        sanitizeFileName t :: initAState.usedNames⟩
      ⟨t, lvl, TYPE_DOC⟩ [] (r :: rs) rs _ ht hres2]
    rw [show extractReposGo
        ⟨pathUpdate
            (pathUpdate initAState.pathPrefixed initAState.lastLevel
              initAState.lastSanitizedTitle lvl)
            lvl (sanitizeFileName t) lvl,
          lvl, sanitizeFileName t ++ natStr (r % 1000),
          (sanitizeFileName t ++ natStr (r % 1000)) :: sanitizeFileName t ::
            initAState.usedNames⟩ [] rs = some [] from rfl]
    have hroot : pathUpdate initAState.pathPrefixed initAState.lastLevel
        initAState.lastSanitizedTitle lvl = pathUpdate [] 0 [] lvl := rfl
    rw [hroot, pathUpdate_level_eq, if_pos rfl, if_pos rfl, outputPath_root lvl,
      outputPath_root lvl]
    rfl
  · intro heq
    have hlen := congrArg List.length heq
    simp only [List.length_append] at hlen
    omega
  · intro heq
    have hlen := congrArg List.length heq
    simp only [List.length_append] at hlen
    have : (".md".data).length = 3 := rfl
    simp at hlen
  · intro heq
    have hlen := congrArg List.length heq
    simp only [List.length_append] at hlen
    have : (".md".data).length = 3 := rfl
    simp at hlen

/-- Closed instance of the amended C6 theorem at the title `a`, level 0,
one random draw 7. -/
theorem claim_C6_witness :
    (['a'] : List Char) ≠ [] ∧
    (extractReposPaths [⟨['a'], 0, TYPE_DOC⟩, ⟨['a'], 0, TYPE_DOC⟩] (7 :: []) =
        some [sanitizeFileName ['a'] ++ (".md".data),
          (sanitizeFileName ['a'] ++ natStr (7 % 1000)) ++ (".md".data)] ∧
      sanitizeFileName ['a'] ++ (".md".data) ≠
        (sanitizeFileName ['a'] ++ natStr (7 % 1000)) ++ (".md".data) ∧
      sanitizeFileName ['a'] ++ (".md".data) ≠ [] ∧
      (sanitizeFileName ['a'] ++ natStr (7 % 1000)) ++ (".md".data) ≠ [] ∧
      natStr (7 % 1000) ≠ [] ∧
      (∀ c ∈ natStr (7 % 1000), c.isDigit = true)) :=
  ⟨by decide, claim_C6 ['a'] (by decide) 0 7 []⟩

lemma candSpaceA_length : candSpaceA.length = 1001 := by
  rw [candSpaceA]
  simp

lemma mem_candSpaceA_suffix (r : Nat) : ('A' :: natStr (r % 1000)) ∈ candSpaceA := by
  rw [candSpaceA]
  apply List.mem_cons_of_mem
  exact List.mem_map.mpr ⟨r % 1000, List.mem_range.mpr (Nat.mod_lt r (by norm_num)), rfl⟩

lemma sanitizeA : sanitizeFileName ['A'] = ['A'] := by decide

lemma resolveLoopA_spec (used : List (List Char)) :
    ∀ (rng : List Nat) (res : List Char) (rng2 : List Nat),
      resolveLoop used ['A'] rng = some (res, rng2) → res ∈ candSpaceA ∧ res ∉ used := by
  intro rng
  induction rng with
  | nil =>
    intro res rng2 h
    rw [resolveLoop] at h
    exact absurd h (by simp)
  | cons r rest ih =>
    intro res rng2 h
    rw [resolveLoop] at h
    by_cases hc : (sanitizeFileName ['A'] ++ natStr (r % 1000)) ∈ used
    · rw [if_pos hc] at h
      exact ih res rng2 h
    · rw [if_neg hc] at h
      simp only [Option.some.injEq, Prod.mk.injEq] at h
      obtain ⟨h1, -⟩ := h
      subst h1
      rw [sanitizeA] at hc ⊢
      exact ⟨mem_candSpaceA_suffix r, hc⟩

lemma resolveNameA_spec (used : List (List Char)) (rng : List Nat) (res : List Char)
    (rng2 : List Nat) (h : resolveName used ['A'] rng = some (res, rng2)) :
    res ∈ candSpaceA ∧ res ∉ used := by
  rw [resolveName] at h
  by_cases hm : sanitizeFileName ['A'] ∈ used
  · rw [if_pos hm] at h
    exact resolveLoopA_spec used rng res rng2 h
  · rw [if_neg hm] at h
    simp only [Option.some.injEq, Prod.mk.injEq] at h
    obtain ⟨h1, -⟩ := h
    subst h1
    rw [sanitizeA] at hm ⊢
    exact ⟨List.mem_cons_self _ _, hm⟩

/-- Processing `k` further copies of the `A` entry from a state whose
used-name set is distinct, inside the 1001-name candidate space, and
already too full, must exhaust any finite random oracle. -/
lemma goA_none : ∀ (k : Nat) (st : AState) (rng : List Nat),
    st.usedNames.Nodup → (∀ x ∈ st.usedNames, x ∈ candSpaceA) →
    1001 < st.usedNames.length + k →
    extractReposGo st (List.replicate k itemA) rng = none := by
  intro k
  induction k with
  | zero =>
    intro st rng hnd hsub hlen
    exfalso
    have hsp : List.Subperm st.usedNames candSpaceA := List.Nodup.subperm hnd hsub
    have := hsp.length_le
    rw [candSpaceA_length] at this
    omega
  | succ k ih =>
    intro st rng hnd hsub hlen
    rw [List.replicate_succ, extractReposGo, if_neg (by simp [itemA])]
    cases hres : resolveName st.usedNames itemA.title rng with
    | none => rfl
    | some pr =>
      obtain ⟨name, rng2⟩ := pr
      have hspec := resolveNameA_spec st.usedNames rng name rng2
        (by simpa [itemA] using hres)
      have hrec : extractReposGo
          ⟨pathUpdate st.pathPrefixed st.lastLevel st.lastSanitizedTitle itemA.level,
            itemA.level, name, name :: st.usedNames⟩
          (List.replicate k itemA) rng2 = none := by
        apply ih
        · exact List.nodup_cons.mpr ⟨hspec.2, hnd⟩
        · intro x hx
          rcases List.mem_cons.mp hx with rfl | hx'
          · exact hspec.1
          · exact hsub x hx'
        · simp only [List.length_cons]
          omega
      simp only [hrec]

/-- C6 counterexample.  On a TOC of 1002 identical `A`-titled entries, the
1001 distinct names the collision logic can generate are exhausted after
1001 entries, so the loop for the 1002nd entry can never find an unused
name: no finite random oracle, however long, lets the assignment finish. -/
theorem claim_C6_counterexample : assignDiverges tocA1002 := by
  intro rng
  rw [extractReposPaths, tocA1002]
  apply goA_none 1002 initAState rng
  · exact List.nodup_nil
  · intro x hx
    exact absurd hx (List.not_mem_nil x)
  · simp [initAState]

/-! ### Parser cursor is monotone -/

lemma charAt_eq_head_drop (h : List Char) (i : Nat) : charAt h i = (h.drop i).head? := by
  rw [charAt]
  induction h generalizing i with
  | nil => simp
  | cons c t ih =>
    cases i with
    | zero => simp
    | succ n => simp [ih n]

lemma skipWs_ge (h : List Char) (pos : Nat) : pos ≤ skipWs h pos := by
  rw [skipWs]
  omega

lemma findFrom_ge (h pat : List Char) (start e : Nat) (hf : findFrom h pat start = some e) :
    start ≤ e := by
  rw [findFrom] at hf
  obtain ⟨i, -, hie⟩ := Option.map_eq_some'.mp hf
  omega

lemma skipComment_gt (h : List Char) (pos : Nat) (hp : pos < h.length) :
    pos < skipComment h pos := by
  rw [skipComment]
  cases hf : findFrom h ("-->".data) pos with
  | none =>
    show pos < h.length
    exact hp
  | some e =>
    have := findFrom_ge h _ pos e hf
    show pos < e + 3
    omega

lemma attrMatchAt_pos (h : List Char) (pos : Nat) (k v : List Char) (len : Nat)
    (hm : attrMatchAt h pos = some (k, v, len)) : 1 ≤ len := by
  simp only [attrMatchAt] at hm
  by_cases hname : (h.drop pos).takeWhile isAttrChar = []
  · rw [if_pos hname] at hm
    exact absurd hm (by simp)
  · rw [if_neg hname] at hm
    have hlen : 1 ≤ ((h.drop pos).takeWhile isAttrChar).length := List.length_pos.mpr hname
    split at hm <;> [skip; skip] <;> try
      (simp only [Option.some.injEq, Prod.mk.injEq] at hm; omega)
    split at hm <;> simp only [Option.some.injEq, Prod.mk.injEq] at hm <;> omega

lemma parseAttrsF_mono (h : List Char) :
    ∀ (fuel pos : Nat) (attrs a : List (List Char × List Char)) (p2 : Nat),
      parseAttrsF h fuel pos attrs = some (a, p2) → pos ≤ p2 := by
  intro fuel
  induction fuel with
  | zero =>
    intro pos attrs a p2 hp
    rw [parseAttrsF] at hp
    exact absurd hp (by simp)
  | succ fuel ih =>
    intro pos attrs a p2 hp
    simp only [parseAttrsF] at hp
    by_cases hguard : pos < h.length ∧ charAt h pos ≠ some '>' ∧ charAt h pos ≠ some '/'
    · rw [if_pos hguard] at hp
      by_cases hstop : charAt h (skipWs h pos) = some '>' ∨ charAt h (skipWs h pos) = some '/'
      · rw [if_pos hstop] at hp
        simp only [Option.some.injEq, Prod.mk.injEq] at hp
        have := skipWs_ge h pos
        omega
      · rw [if_neg hstop] at hp
        cases hm : attrMatchAt h (skipWs h pos) with
        | none =>
          rw [hm] at hp
          have := ih (skipWs h pos + 1) attrs a p2 hp
          have := skipWs_ge h pos
          omega
        | some kvl =>
          obtain ⟨k, v, len⟩ := kvl
          rw [hm] at hp
          have := ih (skipWs h pos + len) (setAttr attrs k v) a p2 hp
          have := skipWs_ge h pos
          omega
    · rw [if_neg hguard] at hp
      simp only [Option.some.injEq, Prod.mk.injEq] at hp
      omega

lemma parser_mono (h : List Char) : ∀ fuel : Nat,
    (∀ pos cs p2, parseChildrenF h fuel pos = some (cs, p2) → pos ≤ p2) ∧
    (∀ pos el p2, parseElementF h fuel pos = some (el, p2) → pos < p2) := by
  intro fuel
  induction fuel with
  | zero =>
    constructor
    · intro pos cs p2 hp
      rw [parseChildrenF] at hp
      exact absurd hp (by simp)
    · intro pos el p2 hp
      rw [parseElementF] at hp
      exact absurd hp (by simp)
  | succ fuel ih =>
    obtain ⟨ihC, ihE⟩ := ih
    constructor
    · intro pos cs p2 hp
      simp only [parseChildrenF] at hp
      by_cases hlt : pos < h.length
      · rw [if_pos hlt] at hp
        by_cases hc : charAt h pos = some '<'
        · rw [if_pos hc] at hp
          by_cases hclose : ("</".data).isPrefixOf (h.drop pos) = true
          · rw [if_pos hclose] at hp
            simp only [Option.some.injEq, Prod.mk.injEq] at hp
            omega
          · rw [if_neg hclose] at hp
            by_cases hcom : ("<!--".data).isPrefixOf (h.drop pos) = true
            · rw [if_pos hcom] at hp
              cases hm : parseChildrenF h fuel (skipComment h pos) with
              | none =>
                rw [hm] at hp
                exact absurd hp (by simp)
              | some pr =>
                obtain ⟨cs2, p3⟩ := pr
                rw [hm] at hp
                simp only [Option.some.injEq, Prod.mk.injEq] at hp
                have h1 := ihC _ _ _ hm
                have h2 := skipComment_gt h pos hlt
                omega
            · rw [if_neg hcom] at hp
              cases he : parseElementF h fuel pos with
              | none =>
                rw [he] at hp
                exact absurd hp (by simp)
              | some pr =>
                obtain ⟨el2, p3⟩ := pr
                rw [he] at hp
                simp only [] at hp
                cases hm : parseChildrenF h fuel p3 with
                | none =>
                  rw [hm] at hp
                  exact absurd hp (by simp)
                | some pr2 =>
                  obtain ⟨cs2, p4⟩ := pr2
                  rw [hm] at hp
                  simp only [Option.some.injEq, Prod.mk.injEq] at hp
                  have h1 := ihE _ _ _ he
                  have h2 := ihC _ _ _ hm
                  omega
        · rw [if_neg hc] at hp
          cases hm : parseChildrenF h fuel
              (pos + ((h.drop pos).takeWhile fun c => c ≠ '<').length) with
          | none =>
            rw [hm] at hp
            exact absurd hp (by simp)
          | some pr =>
            obtain ⟨cs2, p3⟩ := pr
            rw [hm] at hp
            simp only [Option.some.injEq, Prod.mk.injEq] at hp
            have h1 := ihC _ _ _ hm
            omega
      · rw [if_neg hlt] at hp
        simp only [Option.some.injEq, Prod.mk.injEq] at hp
        omega
    · intro pos el p2 hp
      simp only [parseElementF] at hp
      by_cases htag : (h.drop (pos + 1)).takeWhile isTagChar = []
      · rw [if_pos htag] at hp
        simp only [Option.some.injEq, Prod.mk.injEq] at hp
        omega
      · rw [if_neg htag] at hp
        cases ha : parseAttrsF h fuel
            (pos + 1 + ((h.drop (pos + 1)).takeWhile isTagChar).length) [] with
        | none =>
          rw [ha] at hp
          exact absurd hp (by simp)
        | some pr =>
          obtain ⟨attrs, p3⟩ := pr
          rw [ha] at hp
          simp only [] at hp
          have h3 : pos + 1 ≤ p3 :=
            le_trans (by omega) (parseAttrsF_mono h fuel _ _ _ _ ha)
          by_cases hvoid :
              ((h.drop (pos + 1)).takeWhile isTagChar).map Char.toLower ∈ voidTags
          · rw [if_pos hvoid] at hp
            simp only [Option.some.injEq, Prod.mk.injEq] at hp
            obtain ⟨-, hp2⟩ := hp
            rw [← hp2]
            split_ifs <;> omega
          · rw [if_neg hvoid] at hp
            set p5 := (if charAt h (if charAt h p3 = some '/' then p3 + 1 else p3) = some '>'
              then (if charAt h p3 = some '/' then p3 + 1 else p3) + 1
              else (if charAt h p3 = some '/' then p3 + 1 else p3)) with hp5def
            have hp5 : p3 ≤ p5 := by
              rw [hp5def]
              split_ifs <;> omega
            cases hm : parseChildrenF h fuel p5 with
            | none =>
              rw [hm] at hp
              exact absurd hp (by simp)
            | some pr2 =>
              obtain ⟨cs2, p6⟩ := pr2
              rw [hm] at hp
              simp only [] at hp
              have h6 := ihC _ _ _ hm
              cases hf : findFrom (h.map Char.toLower)
                  ((['<', '/'] ++ ((h.drop (pos + 1)).takeWhile isTagChar).map Char.toLower ++
                    ['>']).map Char.toLower) p6 with
              | none =>
                rw [hf] at hp
                simp only [Option.some.injEq, Prod.mk.injEq] at hp
                obtain ⟨-, hp2⟩ := hp
                omega
              | some e =>
                rw [hf] at hp
                simp only [Option.some.injEq, Prod.mk.injEq] at hp
                obtain ⟨-, hp2⟩ := hp
                have he := findFrom_ge _ _ _ _ hf
                subst hp2
                refine Nat.lt_of_lt_of_le ?_ (Nat.le_trans he (Nat.le_add_right e _))
                omega

/-! ### Parser fuel sufficiency -/

lemma text_progress (h : List Char) (pos : Nat) (hlt : pos < h.length)
    (hc : charAt h pos ≠ some '<') :
    1 ≤ ((h.drop pos).takeWhile fun c => c ≠ '<').length := by
  have hdrop : h.drop pos ≠ [] := by
    intro heq
    have := congrArg List.length heq
    rw [List.length_drop] at this
    simp only [List.length_nil] at this
    omega
  obtain ⟨c, u, hcu⟩ := List.exists_cons_of_ne_nil hdrop
  have hcc : charAt h pos = some c := by
    rw [charAt_eq_head_drop, hcu]
    rfl
  have hcne : c ≠ '<' := fun heq => hc (by rw [hcc, heq])
  rw [hcu, List.takeWhile_cons_of_pos (by simp [hcne])]
  simp

lemma parseAttrsF_suff (h : List Char) :
    ∀ (fuel pos : Nat) (attrs : List (List Char × List Char)),
      h.length - pos + 1 ≤ fuel → (parseAttrsF h fuel pos attrs).isSome = true := by
  intro fuel
  induction fuel with
  | zero =>
    intro pos attrs hf
    omega
  | succ fuel ih =>
    intro pos attrs hf
    simp only [parseAttrsF]
    by_cases hguard : pos < h.length ∧ charAt h pos ≠ some '>' ∧ charAt h pos ≠ some '/'
    · rw [if_pos hguard]
      by_cases hstop : charAt h (skipWs h pos) = some '>' ∨ charAt h (skipWs h pos) = some '/'
      · rw [if_pos hstop]
        simp
      · rw [if_neg hstop]
        cases hm : attrMatchAt h (skipWs h pos) with
        | none =>
          apply ih
          have := skipWs_ge h pos
          omega
        | some kvl =>
          obtain ⟨k, v, len⟩ := kvl
          apply ih
          have h1 := attrMatchAt_pos h (skipWs h pos) k v len hm
          have := skipWs_ge h pos
          omega
    · rw [if_neg hguard]
      simp

lemma parser_suff (h : List Char) : ∀ fuel : Nat,
    (∀ pos : Nat, 2 * (h.length - pos) + 2 ≤ fuel →
      (parseChildrenF h fuel pos).isSome = true) ∧
    (∀ pos : Nat, pos < h.length → 2 * (h.length - pos) + 1 ≤ fuel →
      (parseElementF h fuel pos).isSome = true) := by
  intro fuel
  induction fuel with
  | zero =>
    constructor
    · intro pos hf
      omega
    · intro pos hlt hf
      omega
  | succ fuel ih =>
    obtain ⟨ihC, ihE⟩ := ih
    have monoE := (parser_mono h fuel).2
    constructor
    · intro pos hf
      simp only [parseChildrenF]
      by_cases hlt : pos < h.length
      · rw [if_pos hlt]
        by_cases hc : charAt h pos = some '<'
        · rw [if_pos hc]
          by_cases hclose : ("</".data).isPrefixOf (h.drop pos) = true
          · rw [if_pos hclose]
            simp
          · rw [if_neg hclose]
            by_cases hcom : ("<!--".data).isPrefixOf (h.drop pos) = true
            · rw [if_pos hcom]
              have hsc := skipComment_gt h pos hlt
              have hin : (parseChildrenF h fuel (skipComment h pos)).isSome = true :=
                ihC _ (by omega)
              obtain ⟨⟨cs2, p3⟩, hm⟩ := Option.isSome_iff_exists.mp hin
              rw [hm]
              simp
            · rw [if_neg hcom]
              have hin : (parseElementF h fuel pos).isSome = true := ihE pos hlt (by omega)
              obtain ⟨⟨el2, p3⟩, he⟩ := Option.isSome_iff_exists.mp hin
              rw [he]
              simp only []
              have hp3 : pos < p3 := monoE _ _ _ he
              have hin2 : (parseChildrenF h fuel p3).isSome = true := ihC _ (by omega)
              obtain ⟨⟨cs2, p4⟩, hm⟩ := Option.isSome_iff_exists.mp hin2
              rw [hm]
              simp
        · rw [if_neg hc]
          have hpos := text_progress h pos hlt hc
          have hin : (parseChildrenF h fuel
              (pos + ((h.drop pos).takeWhile fun c => c ≠ '<').length)).isSome = true :=
            ihC _ (by omega)
          obtain ⟨⟨cs2, p3⟩, hm⟩ := Option.isSome_iff_exists.mp hin
          rw [hm]
          simp
      · rw [if_neg hlt]
        simp
    · intro pos hlt hf
      simp only [parseElementF]
      by_cases htag : (h.drop (pos + 1)).takeWhile isTagChar = []
      · rw [if_pos htag]
        simp
      · rw [if_neg htag]
        have hn : 1 ≤ ((h.drop (pos + 1)).takeWhile isTagChar).length :=
          List.length_pos.mpr htag
        have hina : (parseAttrsF h fuel
            (pos + 1 + ((h.drop (pos + 1)).takeWhile isTagChar).length) []).isSome = true :=
          parseAttrsF_suff h fuel _ [] (by omega)
        obtain ⟨⟨attrs, p3⟩, ha⟩ := Option.isSome_iff_exists.mp hina
        rw [ha]
        simp only []
        have hp3 : pos + 1 + ((h.drop (pos + 1)).takeWhile isTagChar).length ≤ p3 :=
          parseAttrsF_mono h fuel _ _ _ _ ha
        by_cases hvoid : ((h.drop (pos + 1)).takeWhile isTagChar).map Char.toLower ∈ voidTags
        · rw [if_pos hvoid]
          simp
        · rw [if_neg hvoid]
          set p5 := (if charAt h (if charAt h p3 = some '/' then p3 + 1 else p3) = some '>'
            then (if charAt h p3 = some '/' then p3 + 1 else p3) + 1
            else (if charAt h p3 = some '/' then p3 + 1 else p3)) with hp5def
          have hp5 : p3 ≤ p5 := by
            rw [hp5def]
            split_ifs <;> omega
          have hin2 : (parseChildrenF h fuel p5).isSome = true := ihC _ (by omega)
          obtain ⟨⟨cs2, p6⟩, hm⟩ := Option.isSome_iff_exists.mp hin2
          rw [hm]
          simp

/-- C3.  On every input, however malformed, the recursive-descent parser
finishes within the fuel budget `parse` provides (the budget is an upper
bound on its recursion depth, each step of which advances the cursor), and
`parse` returns a root node: the parser is a total function and the `none`
fallback in `parse` is dead code. -/
theorem claim_C3 (hh : List Char) :
    ∃ cs p, parseChildrenF hh (parserFuel hh) 0 = some (cs, p) ∧
      parse hh = HNode.root cs := by
  have hs := (parser_suff hh (parserFuel hh)).1 0 (by rw [parserFuel]; omega)
  obtain ⟨⟨cs, p⟩, heq⟩ := Option.isSome_iff_exists.mp hs
  refine ⟨cs, p, heq, ?_⟩
  rw [parse, heq]

/-! ### C9: whitespace-only input -/

lemma trimJs_of_all_ws (s : List Char) (h : ∀ c ∈ s, wsChar c = true) : trimJs s = [] := by
  rw [trimJs, trimStart]
  have hdw : s.dropWhile wsChar = [] := by
    rw [List.dropWhile_eq_nil_iff]
    intro x hx
    exact h x hx
  rw [hdw]
  rfl

/-- C9.  Empty or whitespace-only input makes `htmlToMarkdown` return the
empty string through the early `!html || !html.trim()` check, before any
parsing or rendering happens. -/
theorem claim_C9 (s : List Char) (h : ∀ c ∈ s, wsChar c = true) : htmlToMarkdown s = [] := by
  rw [htmlToMarkdown, if_pos (Or.inr (trimJs_of_all_ws s h))]

/-- Closed instance of C9 on a three-character whitespace string. -/
theorem claim_C9_witness :
    (∀ c ∈ ([' ', '\n', '\t'] : List Char), wsChar c = true) ∧
    htmlToMarkdown [' ', '\n', '\t'] = [] :=
  ⟨by decide, claim_C9 [' ', '\n', '\t'] (by decide)⟩

/-! ### C2: round-trip of plain text -/

lemma parseChildren_no_lt (s : List Char) (hnl : '<' ∉ s) (fuel : Nat) :
    parseChildrenF s (fuel + 1 + 1) 0 =
      some ((if textKeep s then [HNode.text s] else []), s.length) := by
  cases s with
  | nil =>
    simp only [parseChildrenF]
    rw [if_neg (by simp), show textKeep ([] : List Char) = false from by decide]
    simp
  | cons c t =>
    have hc : c ≠ '<' := fun heq => hnl (heq ▸ List.mem_cons_self c t)
    have hch : charAt (c :: t) 0 = some c := rfl
    simp only [parseChildrenF]
    rw [if_pos (by simp : (0 : Nat) < (c :: t).length),
      if_neg (by rw [hch]; simp [hc])]
    have htake : (((c :: t).drop 0).takeWhile fun x => x ≠ '<') = c :: t := by
      rw [List.drop_zero]
      apply List.takeWhile_eq_self_iff.mpr
      intro x hx
      have hxne : x ≠ '<' := fun heq => hnl (heq ▸ hx)
      simp [hxne]
    rw [htake]
    rw [if_neg (show ¬(0 + (c :: t).length < (c :: t).length) from by omega)]
    simp

lemma parse_no_lt (s : List Char) (hnl : '<' ∉ s) :
    parse s = HNode.root (if textKeep s then [HNode.text s] else []) := by
  rw [parse]
  have h2 : parserFuel s = 2 * s.length + 1 + 1 := by
    rw [parserFuel]
  rw [h2, parseChildren_no_lt s hnl (2 * s.length)]

lemma replaceAll_head_amp (pat repl s : List Char) (hp : pat.head? = some '&')
    (hs : '&' ∉ s) : replaceAll pat repl s = s := by
  induction s with
  | nil => rw [replaceAll]
  | cons c t ih =>
    rw [replaceAll]
    have hc : c ≠ '&' := fun heq => hs (heq ▸ List.mem_cons_self c t)
    have hcond : ¬(pat ≠ [] ∧ pat.isPrefixOf (c :: t) = true) := by
      rintro ⟨h1, h2⟩
      cases pat with
      | nil => simp at hp
      | cons p0 pr =>
        have hp0 : p0 = '&' := by simpa using hp
        subst hp0
        simp [List.isPrefixOf] at h2
        exact hc (by simpa using h2.1.symm)
    rw [if_neg hcond, ih fun hm => hs (List.mem_cons_of_mem c hm)]

lemma decodeDec_no_amp (s : List Char) (hs : '&' ∉ s) : decodeDec s = s := by
  induction s with
  | nil => rw [decodeDec]
  | cons c t ih =>
    have hc : c ≠ '&' := fun heq => hs (heq ▸ List.mem_cons_self c t)
    rw [decodeDec, if_neg (fun hand => hc hand.1),
      ih fun hm => hs (List.mem_cons_of_mem c hm)]

lemma decodeHex_no_amp (s : List Char) (hs : '&' ∉ s) : decodeHex s = s := by
  induction s with
  | nil => rw [decodeHex]
  | cons c t ih =>
    have hc : c ≠ '&' := fun heq => hs (heq ▸ List.mem_cons_self c t)
    rw [decodeHex, if_neg (fun hand => hc hand.1),
      ih fun hm => hs (List.mem_cons_of_mem c hm)]

lemma decodeHtmlEntities_no_amp (s : List Char) (hs : '&' ∉ s) :
    decodeHtmlEntities s = s := by
  rw [decodeHtmlEntities]
  have hfold : ∀ ps : List (List Char × List Char), (∀ p ∈ ps, p.1.head? = some '&') →
      ps.foldl (fun acc p => replaceAll p.1 p.2 acc) s = s := by
    intro ps hps
    induction ps with
    | nil => rfl
    | cons p ps2 ih =>
      rw [List.foldl_cons,
        replaceAll_head_amp p.1 p.2 s (hps p (List.mem_cons_self p ps2)) hs]
      exact ih fun q hq => hps q (List.mem_cons_of_mem p hq)
  rw [hfold entityPairs (by decide), decodeDec_no_amp s hs, decodeHex_no_amp s hs]

/-- C2 (amended).  The plain-text round trip holds for every `<`-free
string that the parser's keep-predicate retains (it is empty, has a
non-whitespace character, or contains a literal space): rendering the
parse equals entity-decoding the string.  A nonempty pure newline/tab run
is dropped by the parser (html-to-md.ts:80) and renders to the empty
string, so the unrestricted claim fails; see the counterexample. -/
theorem claim_C2 (s : List Char) (hlt : '<' ∉ s)
    (hkeep : s = [] ∨ textKeep s = true) :
    nodeToMarkdown .ATX (parse s) = decodeHtmlEntities s := by
  rw [parse_no_lt s hlt]
  rcases hkeep with rfl | hkeep
  · rw [show textKeep ([] : List Char) = false from by decide]
    simp only [Bool.false_eq_true, if_false]
    rw [decodeHtmlEntities_no_amp [] (by simp)]
    simp [nodeToMarkdown, renderChildren]
  · rw [if_pos hkeep]
    simp [nodeToMarkdown, renderChildren]

/-- Closed instance of the amended C2 on the string `a b&amp;c`. -/
theorem claim_C2_witness :
    ('<' ∉ ("a b&amp;c".data : List Char) ∧
      (("a b&amp;c".data : List Char) = [] ∨ textKeep ("a b&amp;c".data) = true)) ∧
    nodeToMarkdown .ATX (parse ("a b&amp;c".data)) = decodeHtmlEntities ("a b&amp;c".data) :=
  ⟨⟨by decide, by decide⟩, claim_C2 ("a b&amp;c".data) (by decide) (by decide)⟩

/-- C2 counterexample.  The one-character string consisting of a newline
contains no `<`, yet the parser drops the pure-newline text run, so the
rendered parse is empty while entity-decoding returns the newline. -/
theorem claim_C2_counterexample :
    nodeToMarkdown .ATX (parse ['\n']) ≠ decodeHtmlEntities ['\n'] := by
  have h1 : parse ['\n'] = HNode.root [] := by
    rw [parse_no_lt ['\n'] (by decide),
      show textKeep ['\n'] = false from by decide]
    simp
  rw [h1, decodeHtmlEntities_no_amp ['\n'] (by decide)]
  have h2 : nodeToMarkdown .ATX (HNode.root []) = [] := by
    simp [nodeToMarkdown, renderChildren]
  rw [h2]
  simp

/-! ### C10: self-closing slashes on non-void tags -/

lemma takeWhile_tag (tag : List Char) (c : Char) (r : List Char)
    (htag : ∀ x ∈ tag, isTagChar x = true) (hc : isTagChar c = false) :
    (tag ++ c :: r).takeWhile isTagChar = tag := by
  induction tag with
  | nil =>
    rw [List.nil_append, List.takeWhile_cons_of_neg (by simp [hc])]
  | cons a tg ih =>
    rw [List.cons_append, List.takeWhile_cons_of_pos (htag a (List.mem_cons_self a tg)),
      ih fun x hx => htag x (List.mem_cons_of_mem a hx)]

/-- C10.  A self-closing slash on a tag outside the fixed void list does
not stop the parser from recursing: the element's children are whatever
`parseChildren` produces from the input following the `/>`, with the end
tag then searched past that point.  Only the fourteen void-list tags are
treated as childless, in which case the cursor stops right after the `/>`
without consulting the following input. -/
theorem claim_C10 (tag rest : List Char) (fuel : Nat) (hne : tag ≠ [])
    (htag : ∀ c ∈ tag, isTagChar c = true) :
    (tag.map Char.toLower ∉ voidTags →
      parseElementF ('<' :: tag ++ '/' :: '>' :: rest) (fuel + 1 + 1) 0 =
        match parseChildrenF ('<' :: tag ++ '/' :: '>' :: rest) (fuel + 1)
            (tag.length + 3) with
        | none => none
        | some (cs, p6) =>
          some (some (HNode.element (tag.map Char.toLower) [] cs),
            match findFrom (('<' :: tag ++ '/' :: '>' :: rest).map Char.toLower)
                ((['<', '/'] ++ tag.map Char.toLower ++ ['>']).map Char.toLower) p6 with
            | some e => e + (['<', '/'] ++ tag.map Char.toLower ++ ['>']).length
            | none => p6)) ∧
    (tag.map Char.toLower ∈ voidTags →
      parseElementF ('<' :: tag ++ '/' :: '>' :: rest) (fuel + 1 + 1) 0 =
        some (some (HNode.element (tag.map Char.toLower) [] []), tag.length + 3)) := by
  have htake : (('<' :: tag ++ '/' :: '>' :: rest).drop (0 + 1)).takeWhile isTagChar = tag := by
    show ((tag ++ '/' :: '>' :: rest).takeWhile isTagChar) = tag
    exact takeWhile_tag tag '/' _ htag (by decide)
  have hdropn : ('<' :: tag ++ '/' :: '>' :: rest).drop (0 + 1 + tag.length) =
      '/' :: '>' :: rest := by
    show (('<' :: (tag ++ '/' :: '>' :: rest)).drop (0 + 1 + tag.length)) = _
    rw [show 0 + 1 + tag.length = tag.length + 1 from by omega, List.drop_succ_cons,
      List.drop_left]
  have hch1 : charAt ('<' :: tag ++ '/' :: '>' :: rest) (0 + 1 + tag.length) = some '/' := by
    rw [charAt_eq_head_drop, hdropn]
    rfl
  have hdropn2 : ('<' :: tag ++ '/' :: '>' :: rest).drop (0 + 1 + tag.length + 1) =
      '>' :: rest := by
    rw [show 0 + 1 + tag.length + 1 = (tag.length + 1) + 1 from by omega]
    show (('<' :: (tag ++ '/' :: '>' :: rest)).drop (tag.length + 1 + 1)) = _
    rw [List.drop_succ_cons, show tag.length + 1 = (tag ++ ['/']).length from by simp,
      show tag ++ '/' :: '>' :: rest = (tag ++ ['/']) ++ '>' :: rest from by simp,
      List.drop_left]
  have hch2 : charAt ('<' :: tag ++ '/' :: '>' :: rest) (0 + 1 + tag.length + 1) =
      some '>' := by
    rw [charAt_eq_head_drop, hdropn2]
    rfl
  have hattrs : parseAttrsF ('<' :: tag ++ '/' :: '>' :: rest) (fuel + 1)
      (0 + 1 + tag.length) [] = some ([], 0 + 1 + tag.length) := by
    simp only [parseAttrsF]
    rw [if_neg fun hand => hand.2.2 hch1]
  constructor
  · intro hnv
    simp only [parseElementF]
    rw [htake, if_neg hne, hattrs]
    simp only []
    rw [hch1, if_pos rfl, hch2, if_pos rfl, if_neg hnv,
      show 0 + 1 + tag.length + 1 + 1 = tag.length + 3 from by omega]
  · intro hv
    simp only [parseElementF]
    rw [htake, if_neg hne, hattrs]
    simp only []
    rw [hch1, if_pos rfl, hch2, if_pos rfl, if_pos hv,
      show 0 + 1 + tag.length + 1 + 1 = tag.length + 3 from by omega]

/-- Closed instance of C10 at the non-void tag `div` written `<div/>`. -/
theorem claim_C10_witness :
    (("div".data : List Char) ≠ [] ∧ (∀ c ∈ ("div".data : List Char), isTagChar c = true) ∧
      ("div".data : List Char).map Char.toLower ∉ voidTags) ∧
    parseElementF ('<' :: "div".data ++ '/' :: '>' :: "x</div>".data) (3 + 1 + 1) 0 =
      match parseChildrenF ('<' :: "div".data ++ '/' :: '>' :: "x</div>".data) (3 + 1)
          (("div".data : List Char).length + 3) with
      | none => none
      | some (cs, p6) =>
        some (some (HNode.element (("div".data : List Char).map Char.toLower) [] cs),
          match findFrom (('<' :: "div".data ++ '/' :: '>' :: "x</div>".data).map Char.toLower)
              ((['<', '/'] ++ ("div".data : List Char).map Char.toLower ++ ['>']).map
                Char.toLower) p6 with
          | some e => e + (['<', '/'] ++ ("div".data : List Char).map Char.toLower ++ ['>']).length
          | none => p6) :=
  ⟨⟨by decide, by decide, by decide⟩,
    (claim_C10 ("div".data) ("x</div>".data) 3 (by decide) (by decide)).1 (by decide)⟩

end YuqueToMd
